import Mathlib

/-!
Verification of the CloudWatch-expression comparison library: a shallow
embedding of the parser and of the structural equivalence checker, with
theorems about parsing, error handling and equivalence.

Go strings are modelled as `List Char` (the inputs of interest are ASCII,
where Go's byte indexing and rune iteration coincide); Go's
`(value, error)` returns are modelled with `Except String`, carrying the
exact error message strings of the source.
-/

namespace CloudwatchLep

/-- Go's `unicode.IsSpace` restricted to the ASCII whitespace characters. -/
def goIsSpace (c : Char) : Bool :=
  c = ' ' ∨ c = '\t' ∨ c = '\n' ∨ c = '\x0b' ∨ c = '\x0c' ∨ c = '\r'

/-- `strings.TrimSpace`, left half. -/
def trimLeftSpace (l : List Char) : List Char := l.dropWhile goIsSpace

/-- `strings.TrimSpace`, right half. -/
def trimRightSpace (l : List Char) : List Char := (l.reverse.dropWhile goIsSpace).reverse

/-- `strings.TrimSpace`. -/
def trimSpace (l : List Char) : List Char := trimRightSpace (trimLeftSpace l)

/-- `strings.TrimLeft` with a one-character cutset. -/
def trimLeftAll (c : Char) (l : List Char) : List Char := l.dropWhile (· = c)

/-- `strings.TrimRight` with a one-character cutset. -/
def trimRightAll (c : Char) (l : List Char) : List Char := (l.reverse.dropWhile (· = c)).reverse

/-- `strings.TrimSuffix`: drop `pat` from the end of `s` when it is a suffix. -/
def trimSuffix (s pat : List Char) : List Char :=
  if pat.isSuffixOf s then s.take (s.length - pat.length) else s

/-- The logical operator constant `loAnd = "&&"`.  Go's `logicalOperator`
is a string type, so operators are modelled as `List Char` (the zero value
`""` of the Go type is the empty list). -/
def loAnd : List Char := ['&', '&']

/-- The logical operator constant `loOr = "||"`. -/
def loOr : List Char := ['|', '|']

/-- The comparison operator constant `coEqual = "="`. -/
def coEqual : List Char := ['=']

/-- The comparison operator constant `coNotEqual = "!="`. -/
def coNotEqual : List Char := ['!', '=']

/-- The comparison operator constant `coNotExists = "NOT EXISTS"`. -/
def coNotExists : List Char := ['N', 'O', 'T', ' ', 'E', 'X', 'I', 'S', 'T', 'S']

/-- `listLogicalOperators()` from the source. -/
def listLogicalOperators : List (List Char) := [loAnd, loOr]

/-- `listComparisonOperator()` from the source; the order (not-exists,
not-equal, equal) is significant. -/
def listComparisonOperator : List (List Char) := [coNotExists, coNotEqual, coEqual]

/-- `hasSuffixComparisonOp`: the first comparison operator (in the fixed
priority order) that is a suffix of `s`, if any. -/
def hasSuffixComparisonOp (s : List Char) : Option (List Char) :=
  listComparisonOperator.find? (fun op => op.isSuffixOf s)

/-- `hasSuffixLogicalOp`: the first logical operator that is a suffix of `s`. -/
def hasSuffixLogicalOp (s : List Char) : Option (List Char) :=
  listLogicalOperators.find? (fun op => op.isSuffixOf s)

/-- The expression tree: `simpleExpression` (leaf comparison) and
`complexExpression` (group).  Field order follows the Go structs. -/
inductive Expression where
  | simpleExpression (left right operator : List Char)
  | complexExpression (operator : List Char) (expressions : List Expression)

instance : Inhabited Expression := ⟨.simpleExpression [] [] []⟩

/-- The swap-with-last-and-truncate removal from `complexExpression.isEquivalent`:
`otherExpressions[idx] = otherExpressions[len-1]` followed by dropping the
last slot.  Only ever used with a valid index into a nonempty list, so the
`getLast?` default is irrelevant. -/
def removeSwapLast (l : List Expression) (idx : Nat) : List Expression :=
  (l.set idx (l.getLast?.getD default)).dropLast

mutual

/-- `expression.isEquivalent`.  For a leaf the receiver is `simpleExpression
l r op` and the argument is `o` (so `l2`/`r2`/`op2` play the role of
`simpleOther`'s fields); for a group the children of the receiver are
matched one by one against the remaining children of the argument. -/
def isEquivalent : Expression → Expression → Bool
  | .simpleExpression l r op, o =>
    match o with
    | .simpleExpression l2 r2 op2 =>
      if op2 ≠ op then false
      else if l2 = l ∧ r2 = r then true
      else if l2 = r ∧ r2 = l then true
      else false
    | .complexExpression _ _ => false
  | .complexExpression op es, o =>
    match o with
    | .simpleExpression _ _ _ => false
    | .complexExpression op2 es2 =>
      if op2 ≠ op then false
      else if es.length ≠ es2.length then false
      else matchChildren es es2
termination_by e _ => (sizeOf e, 0, 0)

/-- The matching loop of `complexExpression.isEquivalent`: each child of
the receiver consumes the first equivalent element of the remaining pool,
removed by swap-with-last-and-truncate. -/
def matchChildren : List Expression → List Expression → Bool
  | [], _ => true
  | e :: rest, others =>
    match findEquivalentPos e others with
    | some idx => matchChildren rest (removeSwapLast others idx)
    | none => false
termination_by l _ => (sizeOf l, 2, 0)

/-- `complexExpression.findEquivalentPos`: index of the first element of
`otherExpressions` equivalent to `exp` (Go returns `(false, -1)` when
there is none, modelled as `none`). -/
def findEquivalentPos : Expression → List Expression → Option Nat
  | _, [] => none
  | e, x :: xs =>
    if isEquivalent e x then some 0
    else (findEquivalentPos e xs).map (· + 1)
termination_by e l => (sizeOf e, 1, sizeOf l)

end

/-- `parseSimpleStatement`'s character loop; state is (buffer, left, operator,
foundOp).  Leading spaces and `(` are skipped while the buffer is empty. -/
def pssLoop : List Char → List Char → List Char → List Char → Bool →
    Except String (List Char × List Char × List Char × Bool)
  | [], buf, left, operator, foundOp => .ok (buf, left, operator, foundOp)
  | r :: rest, buf, left, operator, foundOp =>
    if buf.length = 0 ∧ (r = ' ' ∨ r = '(') then
      pssLoop rest buf left operator foundOp
    else
      let buf' := buf ++ [r]
      match hasSuffixComparisonOp buf' with
      | some op =>
        if foundOp then .error "got multiple comparison operators"
        else pssLoop rest [] (trimSpace (trimSuffix buf' op)) op true
      | none => pssLoop rest buf' left operator foundOp

/-- `parseSimpleStatement`: scan for a single comparison operator; the right
hand side is the final buffer trimmed of whitespace and trailing `)`. -/
def parseSimpleStatement (s : List Char) : Except String Expression :=
  match pssLoop s [] [] [] false with
  | .error e => .error e
  | .ok (buf, left, operator, foundOp) =>
    if !foundOp then .error "could not find a operator for this expression"
    else .ok (.simpleExpression left (trimSpace (trimRightAll ')' (trimSpace buf))) operator)

/-- The scanning loop of `matchingParenthesisPos`, with running index and
parenthesis counter (an `Int`, as in Go, since it may go negative). -/
def mppLoop : List Char → Nat → Int → Option Nat
  | [], _, _ => none
  | r :: rest, i, acc =>
    let acc' := acc + (if r = '(' then 1 else 0) - (if r = ')' then 1 else 0)
    if acc' = 0 then some i else mppLoop rest (i + 1) acc'

/-- `matchingParenthesisPos`: first index at which the running open/close
count returns to zero (`none` models Go's `-1`). -/
def matchingParenthesisPos (s : List Char) : Option Nat := mppLoop s 0 0

/-- `maxDepth = 5`. -/
def maxDepth : Nat := 5

mutual

/-- `safeParse` (the depth-5 version): entry depth guard, then the scan. -/
def safeParse (s : List Char) (depth : Nat) : Except String Expression :=
  if depth > maxDepth then .error "max depth reached, can't parse this expression"
  else spLoop s depth s [] [] []
termination_by (s.length, 1)

/-- The pointer loop of `safeParse`; `rest` is the unprocessed tail
(`s[pointer:]`).  On `(` the matching parenthesis is located, the strict
inside is parsed recursively, and the pointer jumps past the match;
otherwise the character is buffered and the buffer's suffix is checked for
a logical operator.  After the scan the trailing fragment is parsed as a
simple statement, and a single accumulated expression is unwrapped. -/
def spLoop (s : List Char) (depth : Nat) (rest : List Char) (buf logicalOp : List Char)
    (expressions : List Expression) : Except String Expression :=
  match rest with
  | r :: rest' =>
    if r = '(' then
      match matchingParenthesisPos (r :: rest') with
      | none => .error "broken parenthesis"
      | some pos =>
        let subS := ((r :: rest').drop 1).take (pos - 1)
        match safeParse subS (depth + 1) with
        | .error e => .error e
        | .ok exp =>
          spLoop s depth ((r :: rest').drop (pos + 1)) buf logicalOp (expressions ++ [exp])
    else
      let buf' := buf ++ [r]
      match hasSuffixLogicalOp buf' with
      | some op =>
        let lop := if logicalOp = [] then op else logicalOp
        if lop ≠ op then .error "not supported comparison with alternating logical operators"
        else
          let expStr := trimSpace (trimSuffix buf' op)
          if expStr.length > 0 then
            match parseSimpleStatement expStr with
            | .error e => .error e
            | .ok exp => spLoop s depth rest' [] lop (expressions ++ [exp])
          else spLoop s depth rest' [] lop expressions
      | none => spLoop s depth rest' buf' logicalOp expressions
  | [] =>
    let expStr := trimSpace buf
    match (if expStr.length > 0 then
            match parseSimpleStatement expStr with
            | .error e => .error e
            | .ok exp => .ok (expressions ++ [exp])
           else .ok expressions : Except String (List Expression)) with
    | .error e => .error e
    | .ok exprs =>
      if exprs.length = 1 then .ok (exprs.headD default)
      else .ok (.complexExpression logicalOp exprs)
termination_by (rest.length, 0)

end

/-- The input cleanup shared by both parser versions: trim surrounding
whitespace, strip leading `{` and trailing `}`, trim again. -/
def cleanOf (s : List Char) : List Char :=
  trimSpace (trimRightAll '}' (trimLeftAll '{' (trimSpace s)))

/-- `parse` (the depth-5 version): strip surrounding whitespace and braces,
check the parenthesis counts of the raw input, then scan at depth 0. -/
def parse (s : List Char) : Except String Expression :=
  let cleanS := trimSpace (trimRightAll '}' (trimLeftAll '{' (trimSpace s)))
  if (s.count '(') ≠ (s.count ')') then .error "broken parenthesis"
  else safeParse cleanS 0

/-- `areCloudWatchExpressionsEquivalent`: parse both sides (left first) and
compare; Go's `(bool, error)` pair is modelled as `Bool × Option String`. -/
def areCloudWatchExpressionsEquivalent (a b : List Char) : Bool × Option String :=
  match parse a with
  | .error e => (false, some e)
  | .ok statementA =>
    match parse b with
    | .error e => (false, some e)
    | .ok statementB => (isEquivalent statementA statementB, none)

mutual

/-- Height of an expression tree (a proof-side measure, not part of the
source): leaves have height 0 and a group is one more than its children. -/
def heightE : Expression → Nat
  | .simpleExpression _ _ _ => 0
  | .complexExpression _ es => heightL es + 1
termination_by e => (sizeOf e, 0)

/-- Maximum height of a list of expressions. -/
def heightL : List Expression → Nat
  | [] => 0
  | e :: rest => max (heightE e) (heightL rest)
termination_by l => (sizeOf l, 1)

end

mutual

/-- The invariant actually maintained by the depth-5 parser: every group in
a returned tree has operator `&&`, `||` or the empty string and never
exactly one child. -/
def wellFormedB : Expression → Bool
  | .simpleExpression _ _ _ => true
  | .complexExpression op es =>
    decide (op = loAnd ∨ op = loOr ∨ op = []) && decide (es.length ≠ 1) && allWellFormedB es
termination_by e => (sizeOf e, 0)

/-- `wellFormedB` for every element of a list. -/
def allWellFormedB : List Expression → Bool
  | [] => true
  | e :: rest => wellFormedB e && allWellFormedB rest
termination_by l => (sizeOf l, 1)

end

/-- Running-maximum parenthesis nesting of a string, with the counter
clamped at zero (this is the number of parenthesis-induced descents the
scanner can be driven into along its deepest path). -/
def maxNestingAux : List Char → Nat → Nat → Nat
  | [], _, mx => mx
  | r :: rest, acc, mx =>
    let acc' := if r = '(' then acc + 1 else if r = ')' then acc - 1 else acc
    maxNestingAux rest acc' (max mx acc')

/-- Maximum parenthesis nesting depth of a string. -/
def maxNesting (s : List Char) : Nat := maxNestingAux s 0 0

/-- Net parenthesis count of a string (opens minus closes). -/
def netParens : List Char → Int
  | [] => 0
  | r :: rest => (if r = '(' then 1 else 0) - (if r = ')' then 1 else 0) + netParens rest

/-- `a=b` wrapped in `k` balanced parenthesis pairs. -/
def wrapParens : Nat → List Char
  | 0 => ['a', '=', 'b']
  | k + 1 => '(' :: wrapParens k ++ [')']

/-- Whether `pat` occurs as a contiguous subsequence of `s`. -/
def occursIn (pat s : List Char) : Bool :=
  (List.range (s.length + 1)).any fun i => pat.isPrefixOf (s.drop i)

mutual

/-- `safeParse` of the older depth-2 parser version, bounded by an explicit
fuel parameter (the source recursion consumes substrings built from a
character buffer, which this embedding bounds by fuel instead of a
termination measure; every theorem about it exhibits a run that stays
within the supplied fuel, `none` meaning the bound was hit). -/
def safeParse2F : Nat → List Char → Nat → Option (Except String Expression)
  | 0, _, _ => none
  | fuel + 1, s, depth =>
    if depth > 2 then
      some (.error ("max depth reached (" ++ toString depth ++ "), won't parse anymore"))
    else sp2Loop fuel s depth s 0 false [] [] []
termination_by fuel => (fuel, 0, 0)

/-- The rune loop of the older `safeParse`; state is (remaining characters,
parenthesis counter, inside-sub-expression flag, buffer, fixed logical
operator, accumulated children).  Parentheses are consumed without being
buffered; inside a sub-expression characters are buffered until the counter
returns to zero, then the buffer is parsed recursively; otherwise the buffer
is checked for a logical-operator suffix before the character is buffered. -/
def sp2Loop (fuel : Nat) (s : List Char) (depth : Nat) :
    List Char → Int → Bool → List Char → List Char → List Expression →
    Option (Except String Expression)
  | [], _, _, buf, logicalOp, expressions =>
    if expressions.length = 0 then some (parseSimpleStatement s)
    else if buf.length > 0 then
      match safeParse2F fuel buf (depth + 1) with
      | none => none
      | some (.error e) => some (.error e)
      | some (.ok exp) => some (.ok (.complexExpression logicalOp (expressions ++ [exp])))
    else some (.ok (.complexExpression logicalOp expressions))
  | r :: rest, acc, insideSub, buf, logicalOp, expressions =>
    if r = '(' then
      let acc' := acc + 1
      let inside' := if acc' > 1 then true else insideSub
      if acc' > 3 then some (.error "not supported more than 2 nested parenthesis")
      else sp2Loop fuel s depth rest acc' inside' buf logicalOp expressions
    else if r = ')' then
      let acc' := acc - 1
      if acc' < 0 then some (.error "broken parenthesis")
      else sp2Loop fuel s depth rest acc' insideSub buf logicalOp expressions
    else if insideSub then
      let buf' := buf ++ [r]
      if acc = 0 then
        match safeParse2F fuel buf' (depth + 1) with
        | none => none
        | some (.error e) => some (.error e)
        | some (.ok exp) => sp2Loop fuel s depth rest acc false [] logicalOp (expressions ++ [exp])
      else sp2Loop fuel s depth rest acc insideSub buf' logicalOp expressions
    else
      match hasSuffixLogicalOp buf with
      | some op =>
        let lop := if logicalOp = [] then op else logicalOp
        if lop ≠ op then some (.error "not supported comparison with alternating logical operators")
        else
          let exprStr := trimSuffix buf op
          if exprStr.length > 0 then
            match safeParse2F fuel exprStr (depth + 1) with
            | none => none
            | some (.error e) => some (.error e)
            | some (.ok exp) => sp2Loop fuel s depth rest acc insideSub [r] lop (expressions ++ [exp])
          else sp2Loop fuel s depth rest acc insideSub [r] lop expressions
      | none => sp2Loop fuel s depth rest acc insideSub (buf ++ [r]) logicalOp expressions
termination_by rest => (fuel, 1, rest.length)

end

/-- `parse` of the older depth-2 version: same surrounding cleanup, no
parenthesis-count precheck.  The fuel suffices for every input that needs
no buffer re-parsing; theorems about this version only concern such inputs. -/
def parse2 (s : List Char) : Except String Expression :=
  let cleanS := trimSpace (trimRightAll '}' (trimLeftAll '{' (trimSpace s)))
  (safeParse2F (cleanS.length + 1) cleanS 0).getD (.error "fuel exhausted")

theorem heightE_le_of_mem {x : Expression} {es : List Expression} (h : x ∈ es) :
    heightE x ≤ heightL es := by
  induction es with
  | nil => simp at h
  | cons e rest ih =>
    rcases List.mem_cons.mp h with rfl | h'
    · simp [heightL]
    · exact le_trans (ih h') (by simp [heightL])

theorem heightE_lt_complex {x : Expression} {op : List Char} {es : List Expression}
    (h : x ∈ es) : heightE x < heightE (.complexExpression op es) := by
  have := heightE_le_of_mem h
  simp only [heightE]
  omega

theorem removeSwapLast_length (l : List Expression) (i : Nat) :
    (removeSwapLast l i).length = l.length - 1 := by
  simp [removeSwapLast]

theorem removeSwapLast_perm :
    ∀ (l : List Expression) (i : Nat) (h : i < l.length),
      l.Perm (l.get ⟨i, h⟩ :: removeSwapLast l i) := by
  intro l
  induction l with
  | nil => intro i h; simp at h
  | cons a l' ih =>
    intro i h
    match i with
    | 0 =>
      match l' with
      | [] => simp [removeSwapLast]
      | b :: l'' =>
        have hne : (b :: l'') ≠ [] := by simp
        have hgl : (a :: b :: l'').getLast?.getD default = (b :: l'').getLast hne := by
          rw [List.getLast?_cons_cons, List.getLast?_eq_getLast _ hne]; rfl
        have hperm : (b :: l'').Perm ((b :: l'').getLast hne :: (b :: l'').dropLast) := by
          have h1 := List.perm_append_singleton ((b :: l'').getLast hne) ((b :: l'').dropLast)
          rwa [List.dropLast_append_getLast hne] at h1
        simp only [removeSwapLast, hgl, List.set, List.get]
        rw [List.dropLast_cons_of_ne_nil hne]
        exact hperm.cons a
    | i' + 1 =>
      have hi' : i' < l'.length := by simpa using h
      have hne : l' ≠ [] := List.ne_nil_of_length_pos (by omega)
      have hgl : (a :: l').getLast? = l'.getLast? := by
        match l', hne with
        | b :: l'', _ => exact List.getLast?_cons_cons
      have hr : removeSwapLast (a :: l') (i' + 1) = a :: removeSwapLast l' i' := by
        have hsetne : l'.set i' (l'.getLast?.getD default) ≠ [] := by
          have : (l'.set i' (l'.getLast?.getD default)).length = l'.length := by simp
          exact List.ne_nil_of_length_pos (by omega)
        simp only [removeSwapLast, hgl, List.set_cons_succ]
        rw [List.dropLast_cons_of_ne_nil hsetne]
      rw [hr, List.get_cons_succ]
      exact ((ih i' hi').cons a).trans (List.Perm.swap _ a _)

theorem findEquivalentPos_some :
    ∀ (l : List Expression) (e : Expression) (i : Nat),
      findEquivalentPos e l = some i →
      ∃ h : i < l.length, isEquivalent e (l.get ⟨i, h⟩) = true := by
  intro l
  induction l with
  | nil => intro e i h; simp [findEquivalentPos] at h
  | cons x xs ih =>
    intro e i h
    cases hx : isEquivalent e x with
    | true =>
      rw [findEquivalentPos, hx, if_pos rfl] at h
      obtain rfl : (0 : Nat) = i := Option.some.inj h
      exact ⟨by simp, by simpa using hx⟩
    | false =>
      rw [findEquivalentPos, hx] at h
      simp only [Bool.false_eq_true, if_false, Option.map_eq_some'] at h
      obtain ⟨j, hj, rfl⟩ := h
      obtain ⟨hlt, hjeq⟩ := ih e j hj
      exact ⟨by simpa using Nat.succ_lt_succ hlt, by simpa using hjeq⟩

theorem findEquivalentPos_isSome :
    ∀ (l : List Expression) (e : Expression),
      (∃ x ∈ l, isEquivalent e x = true) → (findEquivalentPos e l).isSome := by
  intro l
  induction l with
  | nil => intro e h; simp at h
  | cons x xs ih =>
    intro e h
    rw [findEquivalentPos]
    by_cases hx : isEquivalent e x
    · simp [hx]
    · obtain ⟨y, hy, hey⟩ := h
      rcases List.mem_cons.mp hy with rfl | hy'
      · exact absurd hey hx
      · have := ih e ⟨y, hy', hey⟩
        simp only [hx]
        simpa using this

theorem simple_isEquivalent_iff (l r op l2 r2 op2 : List Char) :
    isEquivalent (.simpleExpression l r op) (.simpleExpression l2 r2 op2) = true ↔
      (op2 = op ∧ ((l2 = l ∧ r2 = r) ∨ (l2 = r ∧ r2 = l))) := by
  simp only [isEquivalent]
  by_cases h : op2 = op <;> by_cases h1 : l2 = l ∧ r2 = r <;> by_cases h2 : l2 = r ∧ r2 = l <;>
    simp [h, h1, h2]

theorem simple_symm {l r op l2 r2 op2 : List Char}
    (h : isEquivalent (.simpleExpression l r op) (.simpleExpression l2 r2 op2) = true) :
    isEquivalent (.simpleExpression l2 r2 op2) (.simpleExpression l r op) = true := by
  rw [simple_isEquivalent_iff] at h ⊢
  obtain ⟨rfl, h⟩ := h
  rcases h with ⟨rfl, rfl⟩ | ⟨rfl, rfl⟩
  · exact ⟨rfl, Or.inl ⟨rfl, rfl⟩⟩
  · exact ⟨rfl, Or.inr ⟨rfl, rfl⟩⟩

theorem simple_trans {l1 r1 op1 l2 r2 op2 l3 r3 op3 : List Char}
    (h1 : isEquivalent (.simpleExpression l1 r1 op1) (.simpleExpression l2 r2 op2) = true)
    (h2 : isEquivalent (.simpleExpression l2 r2 op2) (.simpleExpression l3 r3 op3) = true) :
    isEquivalent (.simpleExpression l1 r1 op1) (.simpleExpression l3 r3 op3) = true := by
  rw [simple_isEquivalent_iff] at h1 h2 ⊢
  obtain ⟨rfl, hp1⟩ := h1
  obtain ⟨rfl, hp2⟩ := h2
  refine ⟨rfl, ?_⟩
  rcases hp1 with ⟨rfl, rfl⟩ | ⟨rfl, rfl⟩ <;> rcases hp2 with ⟨rfl, rfl⟩ | ⟨rfl, rfl⟩ <;> tauto

theorem rel_refl_scoped (R : Expression → Expression → Prop) :
    ∀ (l : List Expression), (∀ x ∈ l, R x x) → Multiset.Rel R ↑l ↑l := by
  intro l
  induction l with
  | nil => intro _; exact (Multiset.rel_zero_left).mpr rfl
  | cons a t ih =>
    intro h
    rw [← Multiset.cons_coe]
    exact Multiset.Rel.cons (h a (by simp)) (ih fun x hx => h x (by simp [hx]))

theorem rel_comp_scoped (R : Expression → Expression → Prop) :
    ∀ (s t u : Multiset Expression), Multiset.Rel R s t → Multiset.Rel R t u →
      (∀ x y z, x ∈ s → y ∈ t → z ∈ u → R x y → R y z → R x z) →
      Multiset.Rel R s u := by
  intro s t u h1
  induction h1 generalizing u with
  | zero =>
    intro h2 _
    rw [Multiset.rel_zero_left] at h2
    rw [h2]
    exact (Multiset.rel_zero_left).mpr rfl
  | @cons a b s' t' hab h ih =>
    intro h2 hcomp
    rw [Multiset.rel_cons_left] at h2
    obtain ⟨c, u', hbc, hrel, rfl⟩ := h2
    refine Multiset.Rel.cons (hcomp a b c (by simp) (by simp) (by simp) hab hbc) ?_
    refine ih u' hrel ?_
    intro x y z hx hy hz hxy hyz
    exact hcomp x y z (Multiset.mem_cons_of_mem hx) (Multiset.mem_cons_of_mem hy)
      (Multiset.mem_cons_of_mem hz) hxy hyz

theorem matchChildren_iff_rel :
    ∀ (es es2 : List Expression),
      (∀ x y, (x ∈ es ∨ x ∈ es2) → (y ∈ es ∨ y ∈ es2) →
        isEquivalent x y = true → isEquivalent y x = true) →
      (∀ x y z, (x ∈ es ∨ x ∈ es2) → (y ∈ es ∨ y ∈ es2) → (z ∈ es ∨ z ∈ es2) →
        isEquivalent x y = true → isEquivalent y z = true → isEquivalent x z = true) →
      es.length = es2.length →
      (matchChildren es es2 = true ↔
        Multiset.Rel (fun x y => isEquivalent x y = true) (↑es) (↑es2)) := by
  intro es
  induction es with
  | nil =>
    intro es2 _ _ hlen
    have h2 : es2 = [] := List.length_eq_zero.mp hlen.symm
    subst h2
    constructor
    · intro _
      exact (Multiset.rel_zero_left).mpr rfl
    · intro _
      rw [matchChildren]
  | cons e rest ih =>
    intro es2 Hs Ht hlen
    have hlen0 : rest.length + 1 = es2.length := by simpa using hlen
    constructor
    · intro hmc
      rw [matchChildren] at hmc
      cases hfep : findEquivalentPos e es2 with
      | none => rw [hfep] at hmc; exact absurd hmc (by simp)
      | some idx =>
        rw [hfep] at hmc
        obtain ⟨hidx, heqv⟩ := findEquivalentPos_some es2 e idx hfep
        have hperm := removeSwapLast_perm es2 idx hidx
        have hmem : ∀ x, x ∈ removeSwapLast es2 idx → x ∈ es2 := fun x hx =>
          (hperm.mem_iff).mpr (List.mem_cons_of_mem _ hx)
        have hlen' : rest.length = (removeSwapLast es2 idx).length := by
          rw [removeSwapLast_length]; omega
        have hrel : Multiset.Rel (fun x y => isEquivalent x y = true)
            (↑rest) (↑(removeSwapLast es2 idx)) := by
          refine (ih (removeSwapLast es2 idx) ?_ ?_ hlen').mp hmc
          · intro x y hx hy
            exact Hs x y (hx.imp (List.mem_cons_of_mem e) (hmem x))
              (hy.imp (List.mem_cons_of_mem e) (hmem y))
          · intro x y z hx hy hz
            exact Ht x y z (hx.imp (List.mem_cons_of_mem e) (hmem x))
              (hy.imp (List.mem_cons_of_mem e) (hmem y))
              (hz.imp (List.mem_cons_of_mem e) (hmem z))
        have hco : (↑es2 : Multiset Expression) =
            (es2.get ⟨idx, hidx⟩) ::ₘ ↑(removeSwapLast es2 idx) := by
          rw [Multiset.cons_coe, Multiset.coe_eq_coe]
          exact hperm
        rw [← Multiset.cons_coe, hco]
        exact Multiset.Rel.cons heqv hrel
    · intro hrel
      classical
      rw [← Multiset.cons_coe, Multiset.rel_cons_left] at hrel
      obtain ⟨b, bs', heb, hrest, hbs⟩ := hrel
      have hbmem : b ∈ es2 := by
        have : b ∈ (↑es2 : Multiset Expression) := by rw [hbs]; simp
        exact Multiset.mem_coe.mp this
      have hsome : (findEquivalentPos e es2).isSome :=
        findEquivalentPos_isSome es2 e ⟨b, hbmem, heb⟩
      obtain ⟨idx, hfep⟩ := Option.isSome_iff_exists.mp hsome
      obtain ⟨hidx, heqc⟩ := findEquivalentPos_some es2 e idx hfep
      have hperm := removeSwapLast_perm es2 idx hidx
      have hco : (↑es2 : Multiset Expression) =
          (es2.get ⟨idx, hidx⟩) ::ₘ ↑(removeSwapLast es2 idx) := by
        rw [Multiset.cons_coe, Multiset.coe_eq_coe]
        exact hperm
      have hmem : ∀ x, x ∈ removeSwapLast es2 idx → x ∈ es2 := fun x hx =>
        (hperm.mem_iff).mpr (List.mem_cons_of_mem _ hx)
      have hcmem : es2.get ⟨idx, hidx⟩ ∈ es2 := es2.get_mem _ _
      have hrel' : Multiset.Rel (fun x y => isEquivalent x y = true)
          (↑rest) (↑(removeSwapLast es2 idx)) := by
        by_cases hbc : b = es2.get ⟨idx, hidx⟩
        · subst hbc
          rw [hbs] at hco
          have h5 := (Multiset.cons_inj_right _).mp hco
          rwa [← h5]
        · have hcbs' : es2.get ⟨idx, hidx⟩ ∈ bs' := by
            have h6 : es2.get ⟨idx, hidx⟩ ∈ (↑es2 : Multiset Expression) :=
              Multiset.mem_coe.mpr hcmem
            rw [hbs, Multiset.mem_cons] at h6
            rcases h6 with h6 | h6
            · exact absurd h6.symm hbc
            · exact h6
          have hbs'eq : bs' = es2.get ⟨idx, hidx⟩ ::ₘ bs'.erase (es2.get ⟨idx, hidx⟩) :=
            (Multiset.cons_erase hcbs').symm
          have hrsl : (↑(removeSwapLast es2 idx) : Multiset Expression) =
              b ::ₘ bs'.erase (es2.get ⟨idx, hidx⟩) := by
            have h1 : b ::ₘ es2.get ⟨idx, hidx⟩ ::ₘ bs'.erase (es2.get ⟨idx, hidx⟩) =
                es2.get ⟨idx, hidx⟩ ::ₘ ↑(removeSwapLast es2 idx) := by
              rw [← hbs'eq, ← hbs, hco]
            rw [Multiset.cons_swap] at h1
            exact ((Multiset.cons_inj_right _).mp h1).symm
          rw [hbs'eq, Multiset.rel_cons_right] at hrest
          obtain ⟨a', as', ha'c, has', hra⟩ := hrest
          have ha'mem : a' ∈ e :: rest := by
            have h7 : a' ∈ (↑rest : Multiset Expression) := by rw [hra]; simp
            exact List.mem_cons_of_mem _ (Multiset.mem_coe.mp h7)
          have hce : isEquivalent (es2.get ⟨idx, hidx⟩) e = true :=
            Hs e (es2.get ⟨idx, hidx⟩) (Or.inl (by simp)) (Or.inr hcmem) heqc
          have ha'e : isEquivalent a' e = true :=
            Ht a' (es2.get ⟨idx, hidx⟩) e (Or.inl ha'mem) (Or.inr hcmem) (Or.inl (by simp))
              ha'c hce
          have ha'b : isEquivalent a' b = true :=
            Ht a' e b (Or.inl ha'mem) (Or.inl (by simp)) (Or.inr hbmem) ha'e heb
          rw [hrsl, hra]
          exact Multiset.Rel.cons ha'b has'
      have hlen' : rest.length = (removeSwapLast es2 idx).length := by
        rw [removeSwapLast_length]; omega
      have hmc : matchChildren rest (removeSwapLast es2 idx) = true := by
        refine (ih (removeSwapLast es2 idx) ?_ ?_ hlen').mpr hrel'
        · intro x y hx hy
          exact Hs x y (hx.imp (List.mem_cons_of_mem e) (hmem x))
            (hy.imp (List.mem_cons_of_mem e) (hmem y))
        · intro x y z hx hy hz
          exact Ht x y z (hx.imp (List.mem_cons_of_mem e) (hmem x))
            (hy.imp (List.mem_cons_of_mem e) (hmem y))
            (hz.imp (List.mem_cons_of_mem e) (hmem z))
      rw [matchChildren, hfep]
      exact hmc

theorem complex_isEquivalent_eq (op op2 : List Char) (es es2 : List Expression) :
    isEquivalent (.complexExpression op es) (.complexExpression op2 es2) =
      if op2 = op ∧ es.length = es2.length then matchChildren es es2 else false := by
  rw [isEquivalent]
  by_cases h1 : op2 = op <;> by_cases h2 : es.length = es2.length <;> simp [h1, h2]

theorem symmTransAux :
    ∀ n : Nat,
      (∀ a b, heightE a ≤ n → heightE b ≤ n →
        isEquivalent a b = true → isEquivalent b a = true) ∧
      (∀ a b c, heightE a ≤ n → heightE b ≤ n → heightE c ≤ n →
        isEquivalent a b = true → isEquivalent b c = true → isEquivalent a c = true) := by
  intro n
  induction n with
  | zero =>
    constructor
    · intro a b ha hb hab
      match a, b with
      | .simpleExpression _ _ _, .simpleExpression _ _ _ => exact simple_symm hab
      | .simpleExpression _ _ _, .complexExpression _ _ => simp [isEquivalent] at hab
      | .complexExpression _ _, .simpleExpression _ _ _ => simp [isEquivalent] at hab
      | .complexExpression _ _, .complexExpression _ _ => simp [heightE] at ha
    · intro a b c ha hb hc hab hbc
      match a, b, c with
      | .simpleExpression _ _ _, .simpleExpression _ _ _, .simpleExpression _ _ _ =>
        exact simple_trans hab hbc
      | .simpleExpression _ _ _, .simpleExpression _ _ _, .complexExpression _ _ =>
        simp [isEquivalent] at hbc
      | .simpleExpression _ _ _, .complexExpression _ _, _ => simp [isEquivalent] at hab
      | .complexExpression _ _, _, _ => simp [heightE] at ha
  | succ n ihn =>
    obtain ⟨ihs, iht⟩ := ihn
    constructor
    · intro a b ha hb hab
      match a, b with
      | .simpleExpression _ _ _, .simpleExpression _ _ _ => exact simple_symm hab
      | .simpleExpression _ _ _, .complexExpression _ _ => simp [isEquivalent] at hab
      | .complexExpression _ _, .simpleExpression _ _ _ => simp [isEquivalent] at hab
      | .complexExpression op es, .complexExpression op2 es2 =>
        simp only [heightE, Nat.add_le_add_iff_right] at ha hb
        have hhx : ∀ x, (x ∈ es ∨ x ∈ es2) → heightE x ≤ n := by
          intro x hx
          rcases hx with hx | hx
          · exact le_trans (heightE_le_of_mem hx) ha
          · exact le_trans (heightE_le_of_mem hx) hb
        rw [complex_isEquivalent_eq] at hab
        by_cases hcond : op2 = op ∧ es.length = es2.length
        · rw [if_pos hcond] at hab
          rw [complex_isEquivalent_eq, if_pos ⟨hcond.1.symm, hcond.2.symm⟩]
          have h1 := (matchChildren_iff_rel es es2
            (fun x y hx hy hxy => ihs x y (hhx x hx) (hhx y hy) hxy)
            (fun x y z hx hy hz h1 h2 => iht x y z (hhx x hx) (hhx y hy) (hhx z hz) h1 h2)
            hcond.2).mp hab
          have h2 : Multiset.Rel (fun x y => isEquivalent x y = true) (↑es2) (↑es) := by
            rw [← Multiset.rel_flip]
            refine h1.mono ?_
            intro x hx y hy hxy
            exact ihs x y (hhx x (Or.inl (Multiset.mem_coe.mp hx)))
              (hhx y (Or.inr (Multiset.mem_coe.mp hy))) hxy
          exact (matchChildren_iff_rel es2 es
            (fun x y hx hy hxy => ihs x y (hhx x hx.symm) (hhx y hy.symm) hxy)
            (fun x y z hx hy hz h1' h2' =>
              iht x y z (hhx x hx.symm) (hhx y hy.symm) (hhx z hz.symm) h1' h2')
            hcond.2.symm).mpr h2
        · rw [if_neg hcond] at hab
          exact absurd hab (by simp)
    · intro a b c ha hb hc hab hbc
      match a, b, c with
      | .simpleExpression _ _ _, .simpleExpression _ _ _, .simpleExpression _ _ _ =>
        exact simple_trans hab hbc
      | .simpleExpression _ _ _, .simpleExpression _ _ _, .complexExpression _ _ =>
        simp [isEquivalent] at hbc
      | .simpleExpression _ _ _, .complexExpression _ _, _ => simp [isEquivalent] at hab
      | .complexExpression _ _, .simpleExpression _ _ _, _ => simp [isEquivalent] at hab
      | .complexExpression _ _, .complexExpression _ _, .simpleExpression _ _ _ =>
        simp [isEquivalent] at hbc
      | .complexExpression opa ea, .complexExpression opb eb, .complexExpression opc ec =>
        simp only [heightE, Nat.add_le_add_iff_right] at ha hb hc
        have hhx : ∀ x, (x ∈ ea ∨ x ∈ eb ∨ x ∈ ec) → heightE x ≤ n := by
          intro x hx
          rcases hx with hx | hx | hx
          · exact le_trans (heightE_le_of_mem hx) ha
          · exact le_trans (heightE_le_of_mem hx) hb
          · exact le_trans (heightE_le_of_mem hx) hc
        rw [complex_isEquivalent_eq] at hab hbc
        by_cases hc1 : opb = opa ∧ ea.length = eb.length
        · by_cases hc2 : opc = opb ∧ eb.length = ec.length
          · rw [if_pos hc1] at hab
            rw [if_pos hc2] at hbc
            rw [complex_isEquivalent_eq,
              if_pos ⟨hc2.1.trans hc1.1, hc1.2.trans hc2.2⟩]
            have hr1 := (matchChildren_iff_rel ea eb
              (fun x y hx hy hxy => ihs x y (hhx x (by tauto)) (hhx y (by tauto)) hxy)
              (fun x y z hx hy hz h1 h2 =>
                iht x y z (hhx x (by tauto)) (hhx y (by tauto)) (hhx z (by tauto)) h1 h2)
              hc1.2).mp hab
            have hr2 := (matchChildren_iff_rel eb ec
              (fun x y hx hy hxy => ihs x y (hhx x (by tauto)) (hhx y (by tauto)) hxy)
              (fun x y z hx hy hz h1 h2 =>
                iht x y z (hhx x (by tauto)) (hhx y (by tauto)) (hhx z (by tauto)) h1 h2)
              hc2.2).mp hbc
            have hr3 : Multiset.Rel (fun x y => isEquivalent x y = true) (↑ea) (↑ec) := by
              refine rel_comp_scoped _ (↑ea) (↑eb) (↑ec) hr1 hr2 ?_
              intro x y z hx hy hz h1 h2
              exact iht x y z (hhx x (Or.inl (Multiset.mem_coe.mp hx)))
                (hhx y (Or.inr (Or.inl (Multiset.mem_coe.mp hy))))
                (hhx z (Or.inr (Or.inr (Multiset.mem_coe.mp hz)))) h1 h2
            exact (matchChildren_iff_rel ea ec
              (fun x y hx hy hxy => ihs x y (hhx x (by tauto)) (hhx y (by tauto)) hxy)
              (fun x y z hx hy hz h1 h2 =>
                iht x y z (hhx x (by tauto)) (hhx y (by tauto)) (hhx z (by tauto)) h1 h2)
              (hc1.2.trans hc2.2)).mpr hr3
          · rw [if_neg hc2] at hbc
            exact absurd hbc (by simp)
        · rw [if_neg hc1] at hab
          exact absurd hab (by simp)

theorem isEquivalent_symm (a b : Expression) (h : isEquivalent a b = true) :
    isEquivalent b a = true :=
  (symmTransAux (max (heightE a) (heightE b))).1 a b (le_max_left _ _) (le_max_right _ _) h

theorem isEquivalent_trans (a b c : Expression) (h1 : isEquivalent a b = true)
    (h2 : isEquivalent b c = true) : isEquivalent a c = true :=
  (symmTransAux (max (heightE a) (max (heightE b) (heightE c)))).2 a b c
    (le_max_left _ _) (le_trans (le_max_left _ _) (le_max_right _ _))
    (le_trans (le_max_right _ _) (le_max_right _ _)) h1 h2

theorem isEquivalent_refl : ∀ (a : Expression), isEquivalent a a = true := by
  have aux : ∀ (n : Nat) (a : Expression), heightE a ≤ n → isEquivalent a a = true := by
    intro n
    induction n with
    | zero =>
      intro a ha
      match a with
      | .simpleExpression l r op => rw [simple_isEquivalent_iff]; exact ⟨rfl, Or.inl ⟨rfl, rfl⟩⟩
      | .complexExpression _ _ => simp [heightE] at ha
    | succ n ih =>
      intro a ha
      match a with
      | .simpleExpression l r op => rw [simple_isEquivalent_iff]; exact ⟨rfl, Or.inl ⟨rfl, rfl⟩⟩
      | .complexExpression op es =>
        simp only [heightE, Nat.add_le_add_iff_right] at ha
        rw [complex_isEquivalent_eq, if_pos ⟨rfl, rfl⟩]
        refine (matchChildren_iff_rel es es
          (fun x y _ _ hxy => isEquivalent_symm x y hxy)
          (fun x y z _ _ _ h1 h2 => isEquivalent_trans x y z h1 h2) rfl).mpr ?_
        exact rel_refl_scoped _ es
          (fun x hx => ih x (le_trans (heightE_le_of_mem hx) ha))
  exact fun a => aux (heightE a) a le_rfl

/-- Claim C2: leaf equivalence holds exactly when the operators are equal and
the operand pair matches directly or swapped; in particular every comparison
is equivalent to its operand-swapped form. -/
theorem simpleExpression_isEquivalent_iff :
    (∀ l r op l2 r2 op2,
      (isEquivalent (.simpleExpression l r op) (.simpleExpression l2 r2 op2) = true ↔
        (op2 = op ∧ ((l2 = l ∧ r2 = r) ∨ (l2 = r ∧ r2 = l))))) ∧
    (∀ l op r, isEquivalent (.simpleExpression l r op) (.simpleExpression r l op) = true) := by
  constructor
  · intro l r op l2 r2 op2
    simp only [isEquivalent]
    by_cases h : op2 = op <;> by_cases h1 : l2 = l ∧ r2 = r <;> by_cases h2 : l2 = r ∧ r2 = l <;>
      simp [h, h1, h2]
  · intro l op r
    simp [isEquivalent]

/-- Claim C1: group equivalence is multiset equality of children.  A group
is never equivalent to a non-group, to a group with a different logical
operator, or to one with a different child count; when operator and count
match, the greedy first-match-and-remove scan returns true exactly when a
perfect recursively-equivalent 1:1 pairing of the children exists
(expressed as `Multiset.Rel`), so the greedy strategy has no false
negatives. -/
theorem complexExpression_isEquivalent_iff_rel (op : List Char) (es : List Expression)
    (o : Expression) :
    isEquivalent (.complexExpression op es) o = true ↔
      ∃ op2 es2, o = .complexExpression op2 es2 ∧ op2 = op ∧ es2.length = es.length ∧
        Multiset.Rel (fun x y => isEquivalent x y = true) (↑es) (↑es2) := by
  match o with
  | .simpleExpression l2 r2 op2 =>
    constructor
    · intro h; simp [isEquivalent] at h
    · rintro ⟨op2', es2', heq, -⟩; exact absurd heq (by simp)
  | .complexExpression op2 es2 =>
    rw [complex_isEquivalent_eq]
    constructor
    · intro h
      by_cases hcond : op2 = op ∧ es.length = es2.length
      · rw [if_pos hcond] at h
        refine ⟨op2, es2, rfl, hcond.1, hcond.2.symm, ?_⟩
        exact (matchChildren_iff_rel es es2
          (fun x y _ _ hxy => isEquivalent_symm x y hxy)
          (fun x y z _ _ _ h1 h2 => isEquivalent_trans x y z h1 h2) hcond.2).mp h
      · rw [if_neg hcond] at h
        exact absurd h (by simp)
    · rintro ⟨op2', es2', heq, hop, hlen, hrel⟩
      injection heq with h1 h2
      subst h1; subst h2
      rw [if_pos ⟨hop, hlen.symm⟩]
      exact (matchChildren_iff_rel es es2
        (fun x y _ _ hxy => isEquivalent_symm x y hxy)
        (fun x y z _ _ _ h1 h2 => isEquivalent_trans x y z h1 h2) hlen.symm).mpr hrel

/-- Claim C3: group order independence — a group is equivalent to the group
obtained by arbitrarily permuting its children. -/
theorem complexExpression_isEquivalent_perm (op : List Char) (es es' : List Expression)
    (h : es.Perm es') :
    isEquivalent (.complexExpression op es) (.complexExpression op es') = true := by
  rw [complex_isEquivalent_eq, if_pos ⟨rfl, h.length_eq⟩]
  refine (matchChildren_iff_rel es es'
    (fun x y _ _ hxy => isEquivalent_symm x y hxy)
    (fun x y z _ _ _ h1 h2 => isEquivalent_trans x y z h1 h2) h.length_eq).mpr ?_
  have hco : (↑es' : Multiset Expression) = (↑es : Multiset Expression) :=
    Multiset.coe_eq_coe.mpr h.symm
  rw [hco]
  exact rel_refl_scoped _ es (fun x _ => isEquivalent_refl x)

/-- Witness for C3: the two-element group `a=b && c=d` is equivalent to its
swapped form `c=d && a=b`. -/
theorem complexExpression_isEquivalent_perm_witness :
    ([Expression.simpleExpression ['a'] ['b'] ['='],
        Expression.simpleExpression ['c'] ['d'] ['=']].Perm
      [Expression.simpleExpression ['c'] ['d'] ['='],
        Expression.simpleExpression ['a'] ['b'] ['=']]) ∧
    isEquivalent
      (.complexExpression loAnd
        [.simpleExpression ['a'] ['b'] ['='], .simpleExpression ['c'] ['d'] ['=']])
      (.complexExpression loAnd
        [.simpleExpression ['c'] ['d'] ['='], .simpleExpression ['a'] ['b'] ['=']]) = true :=
  ⟨List.Perm.swap _ _ [],
    complexExpression_isEquivalent_perm loAnd _ _ (List.Perm.swap _ _ [])⟩

/-- Claim C8: whenever the raw input has differing counts of `(` and `)`,
`parse` fails up front with the "broken parenthesis" error. -/
theorem parse_broken_parenthesis (s : List Char) (h : s.count '(' ≠ s.count ')') :
    parse s = .error "broken parenthesis" := by
  simp [parse, h]

/-- Witness for C8 at the concrete input `"("`. -/
theorem parse_broken_parenthesis_witness :
    ['('].count '(' ≠ ['('].count ')' ∧ parse ['('] = .error "broken parenthesis" :=
  ⟨by decide, parse_broken_parenthesis ['('] (by decide)⟩

/-- Claim C9: in a leaf fragment, a second comparison-operator suffix match
after one operator has been recorded makes `parseSimpleStatement` fail with
the "multiple comparison operators" error (first conjunct, stated on the
scanning loop in the `foundOp = true` state), and concretely
`parse "{   $.eventName == a }"` returns exactly that error. -/
theorem parseSimpleStatement_multiple_operators :
    (∀ (r : Char) (rest buf left opPrev op : List Char),
      ¬(buf.length = 0 ∧ (r = ' ' ∨ r = '(')) →
      hasSuffixComparisonOp (buf ++ [r]) = some op →
      pssLoop (r :: rest) buf left opPrev true = .error "got multiple comparison operators") ∧
    parse "\x7b   $.eventName == a \x7d".toList =
      .error "got multiple comparison operators" := by
  constructor
  · intro r rest buf left opPrev op hskip hsuf
    rw [pssLoop, if_neg hskip]
    simp [hsuf]
  · simp [parse, safeParse, spLoop, parseSimpleStatement, pssLoop, hasSuffixComparisonOp,
      hasSuffixLogicalOp, listComparisonOperator, listLogicalOperators, coEqual, coNotEqual,
      coNotExists, loAnd, loOr, trimSpace, trimLeftSpace, trimRightSpace, trimLeftAll,
      trimRightAll, trimSuffix, goIsSpace, maxDepth, List.isSuffixOf, matchingParenthesisPos,
      mppLoop, safeParse.eq_def, spLoop.eq_def]

/-- Witness for C9: the loop state reached inside `$.eventName == a` (one
`=` already recorded, a second `=` arriving) errors as claimed. -/
theorem parseSimpleStatement_multiple_operators_witness :
    (¬((['='] : List Char).length = 0 ∧ ('=' = ' ' ∨ '=' = '(')) ∧
      hasSuffixComparisonOp (['='] ++ ['=']) = some ['=']) ∧
    pssLoop ['=', 'a'] ['='] ['$'] ['='] true = .error "got multiple comparison operators" :=
  ⟨⟨by decide, by decide⟩,
    parseSimpleStatement_multiple_operators.1 '=' ['a'] ['='] ['$'] ['='] ['=']
      (by decide) (by decide)⟩

/-- Claim C6: when the scan of a nesting level meets a logical-operator
suffix different from the operator already fixed for that level, the parse
fails with the "alternating logical operators" error (first conjunct,
stated on the scanning loop); a parse error on either side is returned by
`areCloudWatchExpressionsEquivalent` as `(false, that error)` (second
conjunct); and concretely
`are_equivalent("{(a=b)&&(c=d)||(e=f)}", "{(a=b)}")` returns exactly the
alternating-logical-operators error. -/
theorem parse_alternating_logical_operators :
    (∀ (s : List Char) (depth : Nat) (r : Char) (rest' buf logicalOp op : List Char)
      (exprs : List Expression),
      r ≠ '(' →
      hasSuffixLogicalOp (buf ++ [r]) = some op →
      logicalOp ≠ [] →
      logicalOp ≠ op →
      spLoop s depth (r :: rest') buf logicalOp exprs =
        .error "not supported comparison with alternating logical operators") ∧
    (∀ (a b : List Char) (e : String), parse a = .error e →
      areCloudWatchExpressionsEquivalent a b = (false, some e)) ∧
    areCloudWatchExpressionsEquivalent "\x7b(a=b)&&(c=d)||(e=f)\x7d".toList
        "\x7b(a=b)\x7d".toList =
      (false, some "not supported comparison with alternating logical operators") := by
  refine ⟨?_, ?_, ?_⟩
  · intro s depth r rest' buf logicalOp op exprs hr hsuf hlop hne
    rw [spLoop, if_neg hr]
    simp only [hsuf, if_neg hlop]
    rw [if_pos]
    exact fun hcontra => hne hcontra
  · intro a b e h
    simp [areCloudWatchExpressionsEquivalent, h]
  · simp [areCloudWatchExpressionsEquivalent, parse, safeParse, spLoop, parseSimpleStatement,
      pssLoop, hasSuffixComparisonOp, hasSuffixLogicalOp, listComparisonOperator,
      listLogicalOperators, coEqual, coNotEqual, coNotExists, loAnd, loOr, trimSpace,
      trimLeftSpace, trimRightSpace, trimLeftAll, trimRightAll, trimSuffix, goIsSpace,
      maxDepth, List.isSuffixOf, matchingParenthesisPos, mppLoop, safeParse.eq_def,
      spLoop.eq_def]

/-- Witness for C6: the loop state with `&&` fixed and a completed `||`
suffix errors as claimed, and the error-propagation conjunct applied to a
concrete failing left-hand side. -/
theorem parse_alternating_logical_operators_witness :
    ('|' ≠ '(' ∧ hasSuffixLogicalOp (['|'] ++ ['|']) = some ['|', '|'] ∧
      loAnd ≠ ([] : List Char) ∧ loAnd ≠ ['|', '|']) ∧
    spLoop ['x'] 0 ['|'] ['|'] loAnd [] =
      .error "not supported comparison with alternating logical operators" :=
  ⟨⟨by decide, by decide, by decide, by decide⟩,
    parse_alternating_logical_operators.1 ['x'] 0 '|' [] ['|'] loAnd ['|', '|'] []
      (by decide) (by decide) (by decide) (by decide)⟩

theorem allWellFormedB_append (l1 l2 : List Expression) :
    allWellFormedB (l1 ++ l2) = (allWellFormedB l1 && allWellFormedB l2) := by
  induction l1 with
  | nil => simp [allWellFormedB]
  | cons e rest ih => rw [List.cons_append, allWellFormedB, allWellFormedB, ih, Bool.and_assoc]

theorem allWellFormedB_mem {l : List Expression} {x : Expression}
    (h : allWellFormedB l = true) (hx : x ∈ l) : wellFormedB x = true := by
  induction l with
  | nil => simp at hx
  | cons e rest ih =>
    rw [allWellFormedB, Bool.and_eq_true] at h
    rcases List.mem_cons.mp hx with rfl | hx'
    · exact h.1
    · exact ih h.2 hx'

theorem parseSimpleStatement_wf (s : List Char) (e : Expression)
    (h : parseSimpleStatement s = .ok e) : wellFormedB e = true := by
  rw [parseSimpleStatement] at h
  cases hp : pssLoop s [] [] [] false with
  | error msg => rw [hp] at h; exact absurd h (by simp)
  | ok q =>
    obtain ⟨buf, left, operator, foundOp⟩ := q
    rw [hp] at h
    cases foundOp with
    | false => exact absurd h (by simp)
    | true =>
      simp only [Bool.not_true, Bool.false_eq_true, if_false, Except.ok.injEq] at h
      subst h
      rw [wellFormedB]

theorem hasSuffixLogicalOp_mem {b op : List Char} (h : hasSuffixLogicalOp b = some op) :
    op = loAnd ∨ op = loOr := by
  have := List.mem_of_find?_eq_some h
  simpa [listLogicalOperators] using this

theorem wellFormed_aux :
    ∀ n : Nat,
      (∀ (s : List Char) (depth : Nat), 2 * s.length + 1 ≤ n →
        ∀ e, safeParse s depth = .ok e → wellFormedB e = true) ∧
      (∀ (s : List Char) (depth : Nat) (rest buf logicalOp : List Char)
        (exprs : List Expression),
        rest.length ≤ s.length → s.length + rest.length ≤ n →
        (logicalOp = [] ∨ logicalOp = loAnd ∨ logicalOp = loOr) →
        allWellFormedB exprs = true →
        ∀ e, spLoop s depth rest buf logicalOp exprs = .ok e → wellFormedB e = true) := by
  intro n
  induction n using Nat.strong_induction_on with
  | _ n IH =>
    constructor
    · intro s depth hn e h
      rw [safeParse] at h
      by_cases hd : depth > maxDepth
      · rw [if_pos hd] at h; exact absurd h (by simp)
      · rw [if_neg hd] at h
        have hlt : 2 * s.length < n := by omega
        exact (IH (2 * s.length) hlt).2 s depth s [] [] [] le_rfl (by omega) (Or.inl rfl)
          (by rw [allWellFormedB]) e h
    · intro s depth rest buf logicalOp exprs hrs hn hlop hwf e h
      match rest, hrs, hn with
      | r :: rest', hrs, hn =>
        rw [spLoop] at h
        by_cases hr : r = '('
        · rw [if_pos hr] at h
          cases hmpp : matchingParenthesisPos (r :: rest') with
          | none => rw [hmpp] at h; exact absurd h (by simp)
          | some pos =>
            rw [hmpp] at h
            simp only at h
            cases hsub : safeParse (((r :: rest').drop 1).take (pos - 1)) (depth + 1) with
            | error msg => rw [hsub] at h; exact absurd h (by simp)
            | ok exp =>
              rw [hsub] at h
              have hsublen : (((r :: rest').drop 1).take (pos - 1)).length ≤ rest'.length := by
                simp only [List.drop_one, List.length_take, List.length_tail, List.length_cons]
                omega
              have hexp : wellFormedB exp = true := by
                have hlt : 2 * (((r :: rest').drop 1).take (pos - 1)).length + 1 < n := by
                  simp only [List.length_cons] at hn hrs
                  omega
                exact (IH _ hlt).1 _ (depth + 1) le_rfl exp hsub
              have hdroplen : ((r :: rest').drop (pos + 1)).length ≤ rest'.length := by
                simp only [List.length_drop, List.length_cons]
                omega
              have hlt2 : s.length + ((r :: rest').drop (pos + 1)).length < n := by
                simp only [List.length_cons] at hn
                simp only [List.length_drop, List.length_cons]
                omega
              refine (IH _ hlt2).2 s depth _ buf logicalOp (exprs ++ [exp])
                (le_trans hdroplen (by simp only [List.length_cons] at hrs ⊢; omega))
                le_rfl hlop ?_ e h
              rw [allWellFormedB_append, hwf, Bool.true_and, allWellFormedB, hexp,
                allWellFormedB, Bool.and_self]
        · rw [if_neg hr] at h
          simp only at h
          cases hsuf : hasSuffixLogicalOp (buf ++ [r]) with
          | none =>
            rw [hsuf] at h
            have hlt : s.length + rest'.length < n := by
              simp only [List.length_cons] at hn; omega
            exact (IH _ hlt).2 s depth rest' (buf ++ [r]) logicalOp exprs
              (by simp only [List.length_cons] at hrs; omega) le_rfl hlop hwf e h
          | some op =>
            rw [hsuf] at h
            simp only at h
            have hlop' : (if logicalOp = [] then op else logicalOp) = [] ∨
                (if logicalOp = [] then op else logicalOp) = loAnd ∨
                (if logicalOp = [] then op else logicalOp) = loOr := by
              by_cases hl0 : logicalOp = []
              · rw [if_pos hl0]
                exact Or.inr (hasSuffixLogicalOp_mem hsuf)
              · rw [if_neg hl0]
                exact hlop
            by_cases halt : (if logicalOp = [] then op else logicalOp) ≠ op
            · rw [if_pos halt] at h; exact absurd h (by simp)
            · rw [if_neg halt] at h
              have hlt : s.length + rest'.length < n := by
                simp only [List.length_cons] at hn; omega
              have hrs' : rest'.length ≤ s.length := by
                simp only [List.length_cons] at hrs; omega
              by_cases hlen : (trimSpace (trimSuffix (buf ++ [r]) op)).length > 0
              · rw [if_pos hlen] at h
                cases hpss : parseSimpleStatement (trimSpace (trimSuffix (buf ++ [r]) op)) with
                | error msg => rw [hpss] at h; exact absurd h (by simp)
                | ok exp =>
                  rw [hpss] at h
                  refine (IH _ hlt).2 s depth rest' [] _ (exprs ++ [exp]) hrs' le_rfl hlop' ?_ e h
                  rw [allWellFormedB_append, hwf, Bool.true_and, allWellFormedB,
                    parseSimpleStatement_wf _ _ hpss, allWellFormedB, Bool.and_self]
              · rw [if_neg hlen] at h
                exact (IH _ hlt).2 s depth rest' [] _ exprs hrs' le_rfl hlop' hwf e h
      | [], _, _ =>
        rw [spLoop] at h
        have hfin : ∀ exprs' : List Expression, allWellFormedB exprs' = true →
            (if exprs'.length = 1 then (.ok (exprs'.headD default) : Except String Expression)
             else .ok (.complexExpression logicalOp exprs')) = .ok e →
            wellFormedB e = true := by
          intro exprs' hwf' hfin
          by_cases h1 : exprs'.length = 1
          · rw [if_pos h1, Except.ok.injEq] at hfin
            subst hfin
            match exprs', h1 with
            | [x], _ => exact allWellFormedB_mem hwf' (by simp)
          · rw [if_neg h1, Except.ok.injEq] at hfin
            subst hfin
            rw [wellFormedB, Bool.and_eq_true, Bool.and_eq_true]
            refine ⟨⟨?_, by simpa using h1⟩, ?_⟩
            · simp only [decide_eq_true_eq]
              tauto
            · exact hwf'
        by_cases hlen : (trimSpace buf).length > 0
        · rw [if_pos hlen] at h
          cases hpss : parseSimpleStatement (trimSpace buf) with
          | error msg => rw [hpss] at h; exact absurd h (by simp)
          | ok exp =>
            rw [hpss] at h
            refine hfin (exprs ++ [exp]) ?_ h
            rw [allWellFormedB_append, hwf, Bool.true_and, allWellFormedB,
              parseSimpleStatement_wf _ _ hpss, allWellFormedB, Bool.and_self]
        · rw [if_neg hlen] at h
          exact hfin exprs hwf h

/-- Counterexample to C4 as stated: `parse "{}"` succeeds and returns a
Group whose operator is the empty string (neither `&&` nor `||`) and whose
children list is empty (length 0, not ≥ 1). -/
theorem parse_wellFormed_counterexample :
    parse "\x7b\x7d".toList = .ok (.complexExpression [] []) ∧
    ¬(([] : List Char) = loAnd ∨ ([] : List Char) = loOr) ∧
    ¬(1 ≤ ([] : List Expression).length) := by
  refine ⟨?_, by decide, by decide⟩
  simp [parse, safeParse, spLoop, parseSimpleStatement, pssLoop, hasSuffixComparisonOp,
    hasSuffixLogicalOp, listComparisonOperator, listLogicalOperators, coEqual, coNotEqual,
    coNotExists, loAnd, loOr, trimSpace, trimLeftSpace, trimRightSpace, trimLeftAll,
    trimRightAll, trimSuffix, goIsSpace, maxDepth, List.isSuffixOf, matchingParenthesisPos,
    mppLoop, safeParse.eq_def, spLoop.eq_def]

/-- Claim C4, amended: every Group node in the tree returned by a successful
`parse` has operator `&&`, `||` or the empty string, and a child count
different from 1 (single children are unwrapped; the empty operator and the
empty child list arise from vacuous input such as `{}` or from adjacent
parenthesised groups joined without a connective). -/
theorem parse_wellFormed (s : List Char) (e : Expression) (h : parse s = .ok e) :
    wellFormedB e = true := by
  rw [parse] at h
  by_cases hc : s.count '(' ≠ s.count ')'
  · rw [if_pos hc] at h
    exact absurd h (by simp)
  · rw [if_neg hc] at h
    exact (wellFormed_aux _).1 _ 0 le_rfl e h

/-- Witness for C4 (amended) on a concrete successful parse. -/
theorem parse_wellFormed_witness :
    parse "a=b&&c=d".toList =
      .ok (.complexExpression loAnd
        [.simpleExpression ['a'] ['b'] ['='], .simpleExpression ['c'] ['d'] ['=']]) ∧
    wellFormedB
      (.complexExpression loAnd
        [.simpleExpression ['a'] ['b'] ['='], .simpleExpression ['c'] ['d'] ['=']]) = true := by
  have hp : parse "a=b&&c=d".toList =
      .ok (.complexExpression loAnd
        [.simpleExpression ['a'] ['b'] ['='], .simpleExpression ['c'] ['d'] ['=']]) := by
    simp [parse, safeParse, spLoop, parseSimpleStatement, pssLoop, hasSuffixComparisonOp,
      hasSuffixLogicalOp, listComparisonOperator, listLogicalOperators, coEqual, coNotEqual,
      coNotExists, loAnd, loOr, trimSpace, trimLeftSpace, trimRightSpace, trimLeftAll,
      trimRightAll, trimSuffix, goIsSpace, maxDepth, List.isSuffixOf, matchingParenthesisPos,
      mppLoop, safeParse.eq_def, spLoop.eq_def]
  exact ⟨hp, parse_wellFormed _ _ hp⟩

theorem maxNestingAux_ge (l : List Char) : ∀ (acc mx : Nat), mx ≤ maxNestingAux l acc mx := by
  induction l with
  | nil => intro acc mx; simp [maxNestingAux]
  | cons r rest ih =>
    intro acc mx
    rw [maxNestingAux]
    exact le_trans (le_max_left _ _) (ih _ _)

theorem maxNestingAux_mono (l : List Char) :
    ∀ (acc1 acc2 mx1 mx2 : Nat), acc1 ≤ acc2 → mx1 ≤ mx2 →
      maxNestingAux l acc1 mx1 ≤ maxNestingAux l acc2 mx2 := by
  induction l with
  | nil => intro _ _ _ _ _ hm; simpa [maxNestingAux] using hm
  | cons r rest ih =>
    intro acc1 acc2 mx1 mx2 ha hm
    rw [maxNestingAux, maxNestingAux]
    refine ih _ _ _ _ ?_ ?_
    · split_ifs <;> omega
    · have : (if r = '(' then acc1 + 1 else if r = ')' then acc1 - 1 else acc1) ≤
          (if r = '(' then acc2 + 1 else if r = ')' then acc2 - 1 else acc2) := by
        split_ifs <;> omega
      omega

theorem maxNestingAux_max_out (l : List Char) :
    ∀ (acc mx m : Nat), maxNestingAux l acc (max mx m) = max (maxNestingAux l acc mx) m := by
  induction l with
  | nil => intro acc mx m; simp [maxNestingAux]
  | cons r rest ih =>
    intro acc mx m
    rw [maxNestingAux, maxNestingAux]
    have h1 : max (max mx m) (if r = '(' then acc + 1 else if r = ')' then acc - 1 else acc) =
        max (max mx (if r = '(' then acc + 1 else if r = ')' then acc - 1 else acc)) m := by
      omega
    rw [h1, ih]

theorem maxNesting_tail (x : Char) (xs : List Char) :
    maxNesting xs ≤ maxNesting (x :: xs) := by
  rw [maxNesting, maxNesting, maxNestingAux]
  exact maxNestingAux_mono xs 0 _ 0 _ (by omega) (by omega)

theorem maxNesting_drop (l : List Char) : ∀ (k : Nat), maxNesting (l.drop k) ≤ maxNesting l := by
  induction l with
  | nil => intro k; simp
  | cons x xs ih =>
    intro k
    match k with
    | 0 => simp
    | k + 1 =>
      rw [List.drop_succ_cons]
      exact le_trans (ih k) (maxNesting_tail x xs)

theorem maxNestingAux_take (l : List Char) :
    ∀ (k : Nat) (acc mx : Nat), maxNestingAux (l.take k) acc mx ≤ maxNestingAux l acc mx := by
  induction l with
  | nil => intro k acc mx; simp
  | cons x xs ih =>
    intro k acc mx
    match k with
    | 0 =>
      rw [List.take_zero, maxNestingAux, maxNestingAux]
      exact le_trans (le_max_left _ _) (maxNestingAux_ge _ _ _)
    | k + 1 =>
      rw [List.take_succ_cons, maxNestingAux, maxNestingAux]
      exact ih k _ _

theorem maxNesting_append_right (l1 l2 : List Char) :
    maxNesting l2 ≤ maxNesting (l1 ++ l2) := by
  induction l1 with
  | nil => simp
  | cons x xs ih => exact le_trans ih (maxNesting_tail x (xs ++ l2))

theorem maxNesting_append_left (l1 l2 : List Char) :
    maxNesting l1 ≤ maxNesting (l1 ++ l2) := by
  have h1 : (l1 ++ l2).take l1.length = l1 := List.take_left l1 l2
  calc maxNesting l1 = maxNesting ((l1 ++ l2).take l1.length) := by rw [h1]
    _ ≤ maxNesting (l1 ++ l2) := maxNestingAux_take _ _ _ _

theorem maxNesting_dropWhile (p : Char → Bool) (l : List Char) :
    maxNesting (l.dropWhile p) ≤ maxNesting l := by
  conv_rhs => rw [← List.takeWhile_append_dropWhile (p := p) (l := l)]
  exact maxNesting_append_right _ _

theorem maxNesting_reverse_dropWhile (p : Char → Bool) (l : List Char) :
    maxNesting ((l.reverse.dropWhile p).reverse) ≤ maxNesting l := by
  have h1 : l = (l.reverse.dropWhile p).reverse ++ (l.reverse.takeWhile p).reverse := by
    conv_lhs => rw [← List.reverse_reverse l,
      ← List.takeWhile_append_dropWhile (p := p) (l := l.reverse)]
    rw [List.reverse_append]
  conv_rhs => rw [h1]
  exact maxNesting_append_left _ _

theorem maxNesting_trimLeftSpace (l : List Char) : maxNesting (trimLeftSpace l) ≤ maxNesting l :=
  maxNesting_dropWhile _ l

theorem maxNesting_trimSpace (l : List Char) : maxNesting (trimSpace l) ≤ maxNesting l :=
  le_trans (maxNesting_reverse_dropWhile _ _) (maxNesting_dropWhile _ l)

theorem maxNesting_clean (s : List Char) :
    maxNesting (trimSpace (trimRightAll '}' (trimLeftAll '{' (trimSpace s)))) ≤ maxNesting s := by
  refine le_trans (maxNesting_trimSpace _) ?_
  refine le_trans (maxNesting_reverse_dropWhile _ _) ?_
  refine le_trans (maxNesting_dropWhile _ _) ?_
  exact maxNesting_trimSpace s

theorem mppLoop_pos_ge (l : List Char) :
    ∀ (i : Nat) (acc : Int) (p : Nat), mppLoop l i acc = some p → i ≤ p := by
  induction l with
  | nil => intro i acc p h; simp [mppLoop] at h
  | cons x xs ih =>
    intro i acc p h
    rw [mppLoop] at h
    by_cases hz : acc + (if x = '(' then 1 else 0) - (if x = ')' then 1 else 0) = 0
    · rw [if_pos hz] at h
      have := Option.some.inj h
      omega
    · rw [if_neg hz] at h
      exact le_trans (by omega) (ih (i + 1) _ p h)

theorem key_nesting (l : List Char) :
    ∀ (i pos : Nat) (c : Nat),
      mppLoop l i ((c : Int) + 1) = some pos →
      1 + maxNestingAux (l.take (pos - i)) c c ≤ maxNestingAux l (c + 1) (c + 1) := by
  induction l with
  | nil => intro i pos c h; simp [mppLoop] at h
  | cons x xs ih =>
    intro i pos c h
    rw [mppLoop] at h
    by_cases hz : ((c : Int) + 1) + (if x = '(' then 1 else 0) - (if x = ')' then 1 else 0) = 0
    · rw [if_pos hz] at h
      obtain rfl : i = pos := by simpa using h
      simp only [Nat.sub_self, List.take_zero, maxNestingAux]
      calc 1 + c ≤ max (c + 1) (if x = '(' then c + 1 + 1 else if x = ')' then c + 1 - 1 else c + 1) := by
            omega
        _ ≤ maxNestingAux xs _ _ := maxNestingAux_ge _ _ _
    · rw [if_neg hz] at h
      have hge := mppLoop_pos_ge xs (i + 1) _ pos h
      have htake : (x :: xs).take (pos - i) = x :: xs.take (pos - (i + 1)) := by
        have h1 : pos - i = (pos - (i + 1)) + 1 := by omega
        rw [h1, List.take_succ_cons]
      by_cases hx1 : x = '('
      · have hacc : ((c : Int) + 1) + (if x = '(' then 1 else 0) - (if x = ')' then 1 else 0) =
            ((c + 1 : Nat) : Int) + 1 := by
          rw [if_pos hx1, if_neg (by rw [hx1]; decide)]
          push_cast; ring
        rw [hacc] at h
        have hih := ih (i + 1) pos (c + 1) h
        rw [htake]
        rw [maxNestingAux, maxNestingAux, if_pos hx1, if_pos hx1]
        have hm1 : max c (c + 1) = c + 1 := by omega
        have hm2 : max (c + 1) (c + 1 + 1) = c + 1 + 1 := by omega
        rw [hm1, hm2]
        exact hih
      · by_cases hx2 : x = ')'
        · have hc1 : 1 ≤ c := by
            rw [if_neg hx1, if_pos hx2] at hz
            omega
          have hacc : ((c : Int) + 1) + (if x = '(' then 1 else 0) - (if x = ')' then 1 else 0) =
              ((c - 1 : Nat) : Int) + 1 := by
            rw [if_neg hx1, if_pos hx2]
            push_cast [hc1]
            omega
          rw [hacc] at h
          have hih := ih (i + 1) pos (c - 1) h
          have he2 : c - 1 + 1 = c := by omega
          rw [he2] at hih
          rw [htake]
          rw [maxNestingAux, maxNestingAux, if_neg hx1, if_pos hx2, if_neg hx1, if_pos hx2]
          have he1 : c + 1 - 1 = c := by omega
          rw [he1]
          have hm1 : max c (c - 1) = max (c - 1) c := Nat.max_comm _ _
          have hm2 : max (c + 1) c = max c (c + 1) := Nat.max_comm _ _
          rw [hm1, hm2, maxNestingAux_max_out, maxNestingAux_max_out]
          calc 1 + max (maxNestingAux (xs.take (pos - (i + 1))) (c - 1) (c - 1)) c
              = max (1 + maxNestingAux (xs.take (pos - (i + 1))) (c - 1) (c - 1)) (1 + c) :=
                (Nat.add_max_add_left _ _ _).symm
            _ ≤ max (maxNestingAux xs c c) (c + 1) := max_le_max hih (by omega)
        · have hacc : ((c : Int) + 1) + (if x = '(' then 1 else 0) - (if x = ')' then 1 else 0) =
              ((c : Nat) : Int) + 1 := by
            rw [if_neg hx1, if_neg hx2]
            ring
          rw [hacc] at h
          have hih := ih (i + 1) pos c h
          rw [htake]
          rw [maxNestingAux, maxNestingAux, if_neg hx1, if_neg hx2, if_neg hx1, if_neg hx2]
          have hm1 : max c c = c := by omega
          have hm2 : max (c + 1) (c + 1) = c + 1 := by omega
          rw [hm1, hm2]
          exact hih

theorem matchingParenthesisPos_nesting {rest' : List Char} {pos : Nat}
    (h : matchingParenthesisPos ('(' :: rest') = some pos) :
    1 + maxNesting (rest'.take (pos - 1)) ≤ maxNesting ('(' :: rest') := by
  have hk := key_nesting rest' 1 pos 0 (by simpa [matchingParenthesisPos, mppLoop] using h)
  simpa [maxNesting, maxNestingAux] using hk

theorem pssLoop_error_msg :
    ∀ (s buf left op : List Char) (f : Bool) (msg : String),
      pssLoop s buf left op f = .error msg → msg = "got multiple comparison operators" := by
  intro s
  induction s with
  | nil => intro buf left op f msg h; simp [pssLoop] at h
  | cons r rest ih =>
    intro buf left op f msg h
    rw [pssLoop] at h
    by_cases hskip : buf.length = 0 ∧ (r = ' ' ∨ r = '(')
    · rw [if_pos hskip] at h
      exact ih _ _ _ _ _ h
    · rw [if_neg hskip] at h
      simp only at h
      cases hsuf : hasSuffixComparisonOp (buf ++ [r]) with
      | none => rw [hsuf] at h; exact ih _ _ _ _ _ h
      | some op2 =>
        rw [hsuf] at h
        cases f with
        | true =>
          simp only [if_true, Except.error.injEq] at h
          exact h.symm
        | false =>
          simp only [Bool.false_eq_true, if_false] at h
          exact ih _ _ _ _ _ h

theorem parseSimpleStatement_error_msg (s : List Char) (msg : String)
    (h : parseSimpleStatement s = .error msg) :
    msg = "got multiple comparison operators" ∨
      msg = "could not find a operator for this expression" := by
  rw [parseSimpleStatement] at h
  cases hp : pssLoop s [] [] [] false with
  | error e =>
    rw [hp] at h
    simp only [Except.error.injEq] at h
    exact Or.inl (h ▸ pssLoop_error_msg s [] [] [] false e hp)
  | ok q =>
    obtain ⟨buf, left, operator, foundOp⟩ := q
    rw [hp] at h
    cases foundOp with
    | false =>
      simp only [Bool.not_false, if_true, Except.error.injEq] at h
      exact Or.inr h.symm
    | true => simp at h

theorem parseSimpleStatement_not_maxmsg (s : List Char)
    (h : parseSimpleStatement s = .error "max depth reached, can't parse this expression") :
    False := by
  rcases parseSimpleStatement_error_msg s _ h with h1 | h1 <;> exact absurd h1 (by decide)

theorem maxDepth_error_bound :
    ∀ n : Nat,
      (∀ (s : List Char) (depth : Nat), 2 * s.length + 1 ≤ n →
        safeParse s depth = .error "max depth reached, can't parse this expression" →
        maxDepth < depth + maxNesting s) ∧
      (∀ (s : List Char) (depth : Nat) (rest buf logicalOp : List Char)
        (exprs : List Expression),
        rest.length ≤ s.length → s.length + rest.length ≤ n →
        spLoop s depth rest buf logicalOp exprs =
          .error "max depth reached, can't parse this expression" →
        maxDepth < depth + maxNesting rest) := by
  intro n
  induction n using Nat.strong_induction_on with
  | _ n IH =>
    constructor
    · intro s depth hn h
      rw [safeParse] at h
      by_cases hd : depth > maxDepth
      · omega
      · rw [if_neg hd] at h
        have hlt : 2 * s.length < n := by omega
        exact (IH (2 * s.length) hlt).2 s depth s [] [] [] le_rfl (by omega) h
    · intro s depth rest buf logicalOp exprs hrs hn h
      match rest, hrs, hn with
      | r :: rest', hrs, hn =>
        rw [spLoop] at h
        by_cases hr : r = '('
        · rw [if_pos hr] at h
          cases hmpp : matchingParenthesisPos (r :: rest') with
          | none =>
            rw [hmpp] at h
            exact absurd (Except.error.inj h) (by decide)
          | some pos =>
            rw [hmpp] at h
            simp only at h
            cases hsub : safeParse (((r :: rest').drop 1).take (pos - 1)) (depth + 1) with
            | error msg =>
              rw [hsub] at h
              obtain rfl : msg = "max depth reached, can't parse this expression" :=
                Except.error.inj h
              have hsublen : (((r :: rest').drop 1).take (pos - 1)).length ≤ rest'.length := by
                simp only [List.drop_one, List.length_take, List.length_tail, List.length_cons]
                omega
              have hlt : 2 * (((r :: rest').drop 1).take (pos - 1)).length + 1 < n := by
                simp only [List.length_cons] at hn hrs
                omega
              have hb := (IH _ hlt).1 _ (depth + 1) le_rfl hsub
              have hkey : 1 + maxNesting (rest'.take (pos - 1)) ≤ maxNesting ('(' :: rest') := by
                refine matchingParenthesisPos_nesting ?_
                rw [← hr]
                exact hmpp
              have hdrop : ((r :: rest').drop 1) = rest' := by simp
              rw [hdrop] at hb
              subst hr
              omega
            | ok exp =>
              rw [hsub] at h
              have hlt2 : s.length + ((r :: rest').drop (pos + 1)).length < n := by
                simp only [List.length_cons] at hn
                simp only [List.length_drop, List.length_cons]
                omega
              have hb := (IH _ hlt2).2 s depth _ buf logicalOp (exprs ++ [exp])
                (by simp only [List.length_drop, List.length_cons]
                    simp only [List.length_cons] at hrs
                    omega)
                le_rfl h
              have hd2 := maxNesting_drop (r :: rest') (pos + 1)
              omega
        · rw [if_neg hr] at h
          simp only at h
          have htail := maxNesting_tail r rest'
          cases hsuf : hasSuffixLogicalOp (buf ++ [r]) with
          | none =>
            rw [hsuf] at h
            have hlt : s.length + rest'.length < n := by
              simp only [List.length_cons] at hn; omega
            have hb := (IH _ hlt).2 s depth rest' (buf ++ [r]) logicalOp exprs
              (by simp only [List.length_cons] at hrs; omega) le_rfl h
            omega
          | some op =>
            rw [hsuf] at h
            simp only at h
            by_cases halt : (if logicalOp = [] then op else logicalOp) ≠ op
            · rw [if_pos halt] at h
              exact absurd (Except.error.inj h) (by decide)
            · rw [if_neg halt] at h
              have hlt : s.length + rest'.length < n := by
                simp only [List.length_cons] at hn; omega
              have hrs' : rest'.length ≤ s.length := by
                simp only [List.length_cons] at hrs; omega
              by_cases hlen : (trimSpace (trimSuffix (buf ++ [r]) op)).length > 0
              · rw [if_pos hlen] at h
                cases hpss : parseSimpleStatement (trimSpace (trimSuffix (buf ++ [r]) op)) with
                | error msg =>
                  rw [hpss] at h
                  obtain rfl : msg = "max depth reached, can't parse this expression" :=
                    Except.error.inj h
                  exact absurd hpss (fun hc => parseSimpleStatement_not_maxmsg _ hc)
                | ok exp =>
                  rw [hpss] at h
                  have hb := (IH _ hlt).2 s depth rest' [] _ (exprs ++ [exp]) hrs' le_rfl h
                  omega
              · rw [if_neg hlen] at h
                have hb := (IH _ hlt).2 s depth rest' [] _ exprs hrs' le_rfl h
                omega
      | [], _, _ =>
        rw [spLoop] at h
        by_cases hlen : (trimSpace buf).length > 0
        · rw [if_pos hlen] at h
          cases hpss : parseSimpleStatement (trimSpace buf) with
          | error msg =>
            rw [hpss] at h
            obtain rfl : msg = "max depth reached, can't parse this expression" :=
              Except.error.inj h
            exact absurd hpss (fun hc => parseSimpleStatement_not_maxmsg _ hc)
          | ok exp =>
            rw [hpss] at h
            replace h : (if (exprs ++ [exp]).length = 1 then
                  (Except.ok ((exprs ++ [exp]).headD default) : Except String Expression)
                else Except.ok (.complexExpression logicalOp (exprs ++ [exp]))) =
                Except.error "max depth reached, can't parse this expression" := h
            by_cases h1 : (exprs ++ [exp]).length = 1
            · rw [if_pos h1] at h; exact absurd h (by simp)
            · rw [if_neg h1] at h; exact absurd h (by simp)
        · rw [if_neg hlen] at h
          replace h : (if exprs.length = 1 then
                (Except.ok (exprs.headD default) : Except String Expression)
              else Except.ok (.complexExpression logicalOp exprs)) =
              Except.error "max depth reached, can't parse this expression" := h
          by_cases h1 : exprs.length = 1
          · rw [if_pos h1] at h; exact absurd h (by simp)
          · rw [if_neg h1] at h; exact absurd h (by simp)

theorem netParens_append (l1 l2 : List Char) :
    netParens (l1 ++ l2) = netParens l1 + netParens l2 := by
  induction l1 with
  | nil => simp [netParens]
  | cons x xs ih => rw [List.cons_append, netParens, netParens, ih]; ring

theorem netParens_wrap (k : Nat) : netParens (wrapParens k) = 0 := by
  induction k with
  | zero => decide
  | succ k ih =>
    rw [show wrapParens (k + 1) = '(' :: (wrapParens k ++ [')']) from rfl,
      netParens, netParens_append, ih]
    decide

theorem wrapParens_length (k : Nat) : (wrapParens k).length = 2 * k + 3 := by
  induction k with
  | zero => decide
  | succ k ih =>
    rw [show wrapParens (k + 1) = '(' :: (wrapParens k ++ [')']) from rfl]
    simp only [List.length_cons, List.length_append, ih, List.length_nil]
    omega

theorem mpp_step_other (c : Char) (hc1 : c ≠ '(') (hc2 : c ≠ ')') (a : Int) :
    a + (if c = '(' then 1 else 0) - (if c = ')' then 1 else 0) = a := by
  rw [if_neg hc1, if_neg hc2]; ring

theorem mpp_step_open (a : Int) :
    a + (if ('(' : Char) = '(' then 1 else 0) - (if ('(' : Char) = ')' then 1 else 0) = a + 1 := by
  rw [if_pos rfl, if_neg (by decide)]; ring

theorem mpp_step_close (a : Int) :
    a + (if (')' : Char) = '(' then 1 else 0) - (if (')' : Char) = ')' then 1 else 0) = a - 1 := by
  rw [if_neg (by decide), if_pos rfl]; ring

theorem mppLoop_append_none (l1 l2 : List Char) :
    ∀ (i : Nat) (acc : Int), mppLoop l1 i acc = none →
      mppLoop (l1 ++ l2) i acc = mppLoop l2 (i + l1.length) (acc + netParens l1) := by
  induction l1 with
  | nil => intro i acc _; simp [netParens]
  | cons x xs ih =>
    intro i acc h
    rw [mppLoop] at h
    rw [List.cons_append, mppLoop]
    by_cases hz : acc + (if x = '(' then 1 else 0) - (if x = ')' then 1 else 0) = 0
    · rw [if_pos hz] at h; exact absurd h (by simp)
    · rw [if_neg hz] at h
      rw [if_neg hz, ih _ _ h]
      congr 1
      · simp [List.length_cons]; omega
      · rw [netParens]; ring

theorem mppLoop_wrap_none : ∀ (j : Nat) (i : Nat) (acc : Int), 1 ≤ acc →
    mppLoop (wrapParens j) i acc = none := by
  intro j
  induction j with
  | zero =>
    intro i acc hacc
    rw [wrapParens, mppLoop, mpp_step_other 'a' (by decide) (by decide), if_neg (by omega),
      mppLoop, mpp_step_other '=' (by decide) (by decide), if_neg (by omega),
      mppLoop, mpp_step_other 'b' (by decide) (by decide), if_neg (by omega), mppLoop]
  | succ j ih =>
    intro i acc hacc
    rw [show wrapParens (j + 1) = '(' :: (wrapParens j ++ [')']) from rfl]
    rw [mppLoop, mpp_step_open, if_neg (by omega),
      mppLoop_append_none _ _ _ _ (ih (i + 1) (acc + 1) (by omega)), netParens_wrap,
      mppLoop, mpp_step_close, if_neg (by omega), mppLoop]

theorem matchingParenthesisPos_wrap (j : Nat) :
    matchingParenthesisPos ('(' :: (wrapParens j ++ [')'])) =
      some ((wrapParens j).length + 1) := by
  rw [matchingParenthesisPos, mppLoop, mpp_step_open, if_neg (by omega),
    mppLoop_append_none _ _ _ _ (mppLoop_wrap_none j (0 + 1) (0 + 1) (by omega)),
    netParens_wrap, mppLoop, mpp_step_close, if_pos (by omega)]
  congr 1
  omega

theorem wrapParens_count (k : Nat) :
    (wrapParens k).count '(' = k ∧ (wrapParens k).count ')' = k := by
  induction k with
  | zero => decide
  | succ k ih =>
    rw [show wrapParens (k + 1) = '(' :: (wrapParens k ++ [')']) from rfl]
    constructor
    · rw [List.count_cons, List.count_append, ih.1]
      simp
    · rw [List.count_cons, List.count_append, ih.2]
      simp

theorem dropWhile_cons_of_neg (p : Char → Bool) (x : Char) (xs : List Char)
    (h : p x = false) : (x :: xs).dropWhile p = x :: xs := by
  rw [List.dropWhile_cons, h]
  simp

theorem reverse_dropWhile_of_neg (p : Char → Bool) (l : List Char) (x : Char) (xs : List Char)
    (hrev : l.reverse = x :: xs) (h : p x = false) :
    (l.reverse.dropWhile p).reverse = l := by
  rw [hrev, dropWhile_cons_of_neg p x xs h, ← hrev, List.reverse_reverse]

theorem clean_wrap (k : Nat) :
    trimSpace (trimRightAll '}' (trimLeftAll '{' (trimSpace (wrapParens k)))) = wrapParens k := by
  match k with
  | 0 => decide
  | k + 1 =>
    have hcons : wrapParens (k + 1) = '(' :: (wrapParens k ++ [')']) := rfl
    have hrev : (wrapParens (k + 1)).reverse = ')' :: ((wrapParens k).reverse ++ ['(']) := by
      rw [hcons]
      simp
    have hls : trimLeftSpace (wrapParens (k + 1)) = wrapParens (k + 1) := by
      rw [hcons, trimLeftSpace, dropWhile_cons_of_neg _ _ _ (by decide), ← hcons]
    have hts : trimSpace (wrapParens (k + 1)) = wrapParens (k + 1) := by
      rw [trimSpace, hls, trimRightSpace, reverse_dropWhile_of_neg _ _ _ _ hrev (by decide)]
    have hlb : trimLeftAll '{' (wrapParens (k + 1)) = wrapParens (k + 1) := by
      rw [hcons, trimLeftAll, dropWhile_cons_of_neg _ _ _ (by decide), ← hcons]
    have hrb : trimRightAll '}' (wrapParens (k + 1)) = wrapParens (k + 1) := by
      rw [trimRightAll, reverse_dropWhile_of_neg _ _ _ _ hrev (by decide)]
    rw [hts, hlb, hrb, hts]

theorem safeParse_wrap : ∀ (j d : Nat),
    safeParse (wrapParens j) d =
      if 5 < d + j then .error "max depth reached, can't parse this expression"
      else .ok (.simpleExpression ['a'] ['b'] ['=']) := by
  intro j
  induction j with
  | zero =>
    intro d
    rw [safeParse]
    by_cases hd : d > maxDepth
    · rw [if_pos hd, if_pos (by simp [maxDepth] at hd; omega)]
    · rw [if_neg hd, if_neg (by simp [maxDepth] at hd; omega)]
      simp [wrapParens, spLoop, parseSimpleStatement, pssLoop, hasSuffixComparisonOp,
        hasSuffixLogicalOp, listComparisonOperator, listLogicalOperators, coEqual, coNotEqual,
        coNotExists, loAnd, loOr, trimSpace, trimLeftSpace, trimRightSpace, trimLeftAll,
        trimRightAll, trimSuffix, goIsSpace, List.isSuffixOf, spLoop.eq_def]
  | succ j ih =>
    intro d
    rw [safeParse]
    by_cases hd : d > maxDepth
    · rw [if_pos hd, if_pos (by simp [maxDepth] at hd; omega)]
    · rw [if_neg hd]
      rw [show wrapParens (j + 1) = '(' :: (wrapParens j ++ [')']) from rfl]
      rw [spLoop, if_pos rfl]
      simp only [matchingParenthesisPos_wrap]
      have hsub : ((('(' :: (wrapParens j ++ [')'])).drop 1).take ((wrapParens j).length + 1 - 1)) =
          wrapParens j := by
        simp [List.take_left]
      rw [hsub, ih (d + 1)]
      by_cases hcase : 5 < d + 1 + j
      · rw [if_pos hcase, if_pos (show 5 < d + (j + 1) from by omega)]
      · rw [if_neg hcase, if_neg (show ¬5 < d + (j + 1) from by omega)]
        show spLoop ('(' :: (wrapParens j ++ [')'])) d
            (('(' :: (wrapParens j ++ [')'])).drop ((wrapParens j).length + 1 + 1)) [] []
            ([] ++ [Expression.simpleExpression ['a'] ['b'] ['=']]) =
          Except.ok (Expression.simpleExpression ['a'] ['b'] ['='])
        have hdrop : ('(' :: (wrapParens j ++ [')'])).drop ((wrapParens j).length + 1 + 1) = [] := by
          apply List.drop_eq_nil_of_le
          simp
        rw [hdrop, spLoop]
        simp [trimSpace, trimLeftSpace, trimRightSpace]

/-- Claim C7: the depth limit.  (1) Any recursive call entered at a depth
beyond `maxDepth = 5` fails immediately with the max-depth error; (2) no
input whose parenthesis nesting depth is within the limit ever receives
that error from `parse`; (3) the balanced family `(^k a=b )^k` fails with
exactly that error for every `k ≥ 6` — in particular for every expression
nested 3 or more levels beyond the maximum (`k ≥ 8`) — and (4) succeeds
for every `k ≤ 5`. -/
theorem parse_maxDepth_limit :
    (∀ (s : List Char) (depth : Nat), maxDepth < depth →
      safeParse s depth = .error "max depth reached, can't parse this expression") ∧
    (∀ s : List Char, maxNesting s ≤ maxDepth →
      parse s ≠ .error "max depth reached, can't parse this expression") ∧
    (∀ k : Nat, 6 ≤ k →
      parse (wrapParens k) = .error "max depth reached, can't parse this expression") ∧
    (∀ k : Nat, k ≤ 5 →
      parse (wrapParens k) = .ok (.simpleExpression ['a'] ['b'] ['='])) := by
  have hcount : ∀ k : Nat, ¬((wrapParens k).count '(' ≠ (wrapParens k).count ')') := by
    intro k
    rw [(wrapParens_count k).1, (wrapParens_count k).2]
    simp
  refine ⟨?_, ?_, ?_, ?_⟩
  · intro s depth hd
    rw [safeParse, if_pos hd]
  · intro s hnest hcontra
    rw [parse] at hcontra
    by_cases hc : s.count '(' ≠ s.count ')'
    · rw [if_pos hc] at hcontra
      exact absurd (Except.error.inj hcontra) (by decide)
    · rw [if_neg hc] at hcontra
      have hb := (maxDepth_error_bound
        (2 * (trimSpace (trimRightAll '}' (trimLeftAll '{' (trimSpace s)))).length + 1)).1
        _ 0 le_rfl hcontra
      have hle := maxNesting_clean s
      omega
  · intro k hk
    rw [parse, if_neg (hcount k), clean_wrap, safeParse_wrap, if_pos (by omega)]
  · intro k hk
    rw [parse, if_neg (hcount k), clean_wrap, safeParse_wrap, if_neg (by omega)]

/-- Witness for C7: eight levels of nesting (three beyond the maximum)
produce the max-depth error, and five levels succeed. -/
theorem parse_maxDepth_limit_witness :
    (6 ≤ 8 ∧
      parse (wrapParens 8) = .error "max depth reached, can't parse this expression") ∧
    (5 ≤ 5 ∧ parse (wrapParens 5) = .ok (.simpleExpression ['a'] ['b'] ['='])) :=
  ⟨⟨by norm_num, parse_maxDepth_limit.2.2.1 8 (by norm_num)⟩,
    ⟨le_rfl, parse_maxDepth_limit.2.2.2 5 (by norm_num)⟩⟩

theorem trimSpace_cons_space (l : List Char) : trimSpace (' ' :: l) = trimSpace l := by
  rw [trimSpace, trimSpace, trimLeftSpace, trimLeftSpace, List.dropWhile_cons,
    if_pos (by decide)]

theorem trimRightSpace_append_space (l : List Char) :
    trimRightSpace (l ++ [' ']) = trimRightSpace l := by
  rw [trimRightSpace, trimRightSpace, List.reverse_append]
  simp only [List.reverse_singleton, List.singleton_append, List.dropWhile_cons,
    if_pos (show goIsSpace ' ' = true from by decide)]

theorem trimSpace_append_space (l : List Char) : trimSpace (l ++ [' ']) = trimSpace l := by
  rw [trimSpace, trimSpace, trimLeftSpace, trimLeftSpace, List.dropWhile_append]
  by_cases he : (l.dropWhile goIsSpace).isEmpty = true
  · rw [if_pos he]
    have h1 : List.dropWhile goIsSpace [' '] = [] := by decide
    have h2 : l.dropWhile goIsSpace = [] := by
      cases h : l.dropWhile goIsSpace with
      | nil => rfl
      | cons a t => rw [h] at he; simp at he
    rw [h1, h2]
  · rw [if_neg he]
    exact trimRightSpace_append_space _

theorem isSuffixOf_getLast? {op l : List Char} (h : op.isSuffixOf l = true) (hne : op ≠ []) :
    l.getLast? = op.getLast? := by
  obtain ⟨t, rfl⟩ := List.isSuffixOf_iff_suffix.mp h
  rw [List.getLast?_append]
  cases hop : op.getLast? with
  | none => exact absurd (List.getLast?_eq_none_iff.mp hop) hne
  | some c => simp

theorem hasSuffixComparisonOp_append_space (l : List Char) :
    hasSuffixComparisonOp (l ++ [' ']) = none := by
  rw [hasSuffixComparisonOp, List.find?_eq_none]
  intro op hop hsuf
  simp only [listComparisonOperator, List.mem_cons, List.not_mem_nil, or_false] at hop
  have hne : op ≠ [] := by
    rcases hop with rfl | rfl | rfl <;> decide
  have h1 := isSuffixOf_getLast? hsuf hne
  rw [List.getLast?_concat] at h1
  rcases hop with rfl | rfl | rfl <;> exact absurd h1 (by decide)

theorem pssLoop_append_space :
    ∀ (s buf left op : List Char) (f : Bool),
      (match pssLoop (s ++ [' ']) buf left op f with
        | .error e => (Except.error e : Except String Expression)
        | .ok (b, l, o, fo) =>
          if !fo then Except.error "could not find a operator for this expression"
          else Except.ok (.simpleExpression l (trimSpace (trimRightAll ')' (trimSpace b))) o)) =
      (match pssLoop s buf left op f with
        | .error e => (Except.error e : Except String Expression)
        | .ok (b, l, o, fo) =>
          if !fo then Except.error "could not find a operator for this expression"
          else Except.ok (.simpleExpression l (trimSpace (trimRightAll ')' (trimSpace b))) o)) := by
  intro s
  induction s with
  | nil =>
    intro buf left op f
    rw [List.nil_append]
    by_cases hskip : buf.length = 0 ∧ ((' ' : Char) = ' ' ∨ (' ' : Char) = '(')
    · have hstep : pssLoop [' '] buf left op f = pssLoop [] buf left op f := by
        conv_lhs => rw [pssLoop]
        rw [if_pos hskip]
      rw [hstep]
    · have hstep : pssLoop [' '] buf left op f = pssLoop [] (buf ++ [' ']) left op f := by
        conv_lhs => rw [pssLoop]
        rw [if_neg hskip]
        simp only [hasSuffixComparisonOp_append_space buf]
      rw [hstep, pssLoop, pssLoop]
      cases f with
      | true => simp [trimSpace_append_space]
      | false => simp
  | cons r rest ih =>
    intro buf left op f
    rw [List.cons_append, pssLoop, pssLoop]
    by_cases hskip : buf.length = 0 ∧ (r = ' ' ∨ r = '(')
    · rw [if_pos hskip, if_pos hskip]
      exact ih buf left op f
    · rw [if_neg hskip, if_neg hskip]
      simp only
      cases hsuf : hasSuffixComparisonOp (buf ++ [r]) with
      | none => exact ih _ _ _ _
      | some op2 =>
        cases f with
        | true => simp
        | false =>
          simp only [Bool.false_eq_true, if_false]
          exact ih _ _ _ _

theorem parseSimpleStatement_append_space (s : List Char) :
    parseSimpleStatement (s ++ [' ']) = parseSimpleStatement s := by
  rw [parseSimpleStatement, parseSimpleStatement]
  exact pssLoop_append_space s [] [] [] false

theorem parseSimpleStatement_cons_space (s : List Char) :
    parseSimpleStatement (' ' :: s) = parseSimpleStatement s := by
  rw [parseSimpleStatement, parseSimpleStatement, pssLoop, if_pos (by simp)]

/-- Counterexample to C5 as stated: `a b=c` and `ab=c` differ only in a
whitespace character outside any quoted value (neither contains a quote),
yet they parse to non-equivalent trees — whitespace strictly inside an
operand is significant. -/
theorem parse_whitespace_counterexample :
    ("a b=c".toList.filter (fun c => !goIsSpace c) =
      "ab=c".toList.filter (fun c => !goIsSpace c)) ∧
    ('"' ∉ "a b=c".toList) ∧ ('"' ∉ "ab=c".toList) ∧
    parse "a b=c".toList = .ok (.simpleExpression "a b".toList ['c'] ['=']) ∧
    parse "ab=c".toList = .ok (.simpleExpression "ab".toList ['c'] ['=']) ∧
    isEquivalent (.simpleExpression "a b".toList ['c'] ['='])
      (.simpleExpression "ab".toList ['c'] ['=']) = false := by
  refine ⟨by decide, by decide, by decide, ?_, ?_, ?_⟩
  · simp [parse, safeParse, spLoop, parseSimpleStatement, pssLoop, hasSuffixComparisonOp,
      hasSuffixLogicalOp, listComparisonOperator, listLogicalOperators, coEqual, coNotEqual,
      coNotExists, loAnd, loOr, trimSpace, trimLeftSpace, trimRightSpace, trimLeftAll,
      trimRightAll, trimSuffix, goIsSpace, maxDepth, List.isSuffixOf, matchingParenthesisPos,
      mppLoop, safeParse.eq_def, spLoop.eq_def]
  · simp [parse, safeParse, spLoop, parseSimpleStatement, pssLoop, hasSuffixComparisonOp,
      hasSuffixLogicalOp, listComparisonOperator, listLogicalOperators, coEqual, coNotEqual,
      coNotExists, loAnd, loOr, trimSpace, trimLeftSpace, trimRightSpace, trimLeftAll,
      trimRightAll, trimSuffix, goIsSpace, maxDepth, List.isSuffixOf, matchingParenthesisPos,
      mppLoop, safeParse.eq_def, spLoop.eq_def]
  · simp [isEquivalent]

/-- Claim C5, amended: whitespace is insignificant only at operand
boundaries, not inside operands.  Surrounding whitespace of the whole input
leaves `parse` unchanged; leading and trailing whitespace of a leaf
fragment leaves `parseSimpleStatement` unchanged (operands are trimmed);
and quoted literal values are carried into the tree verbatim, surrounding
quote characters included (whitespace inside the quotes preserved). -/
theorem parse_whitespace_amended :
    (∀ s : List Char, parse (' ' :: (s ++ [' '])) = parse s) ∧
    (∀ s : List Char, parseSimpleStatement (' ' :: s) = parseSimpleStatement s) ∧
    (∀ s : List Char, parseSimpleStatement (s ++ [' ']) = parseSimpleStatement s) ∧
    parse "\x7b a = \x22 b  c \x22 \x7d".toList =
      .ok (.simpleExpression ['a'] "\x22 b  c \x22".toList ['=']) := by
  refine ⟨?_, parseSimpleStatement_cons_space, parseSimpleStatement_append_space, ?_⟩
  · intro s
    rw [parse, parse]
    have hcount : ∀ c : Char, (' ' :: (s ++ [' '])).count c = s.count c + (if ' ' = c then 2 else 0) := by
      intro c
      rw [List.count_cons, List.count_append]
      simp [List.count_singleton]
      split_ifs <;> simp_all
    have hc1 : ((' ' :: (s ++ [' '])).count '(' ≠ (' ' :: (s ++ [' '])).count ')') ↔
        (s.count '(' ≠ s.count ')') := by
      rw [hcount, hcount]
      simp
    have hclean : trimSpace (' ' :: (s ++ [' '])) = trimSpace s := by
      rw [trimSpace_cons_space, trimSpace_append_space]
    rw [hclean]
    by_cases hc : s.count '(' ≠ s.count ')'
    · rw [if_pos hc, if_pos (hc1.mpr hc)]
    · rw [if_neg hc, if_neg (fun hx => hc (hc1.mp hx))]
  · simp [parse, safeParse, spLoop, parseSimpleStatement, pssLoop, hasSuffixComparisonOp,
      hasSuffixLogicalOp, listComparisonOperator, listLogicalOperators, coEqual, coNotEqual,
      coNotExists, loAnd, loOr, trimSpace, trimLeftSpace, trimRightSpace, trimLeftAll,
      trimRightAll, trimSuffix, goIsSpace, maxDepth, List.isSuffixOf, matchingParenthesisPos,
      mppLoop, safeParse.eq_def, spLoop.eq_def]

theorem not_suffix_of_not_occurs {pat s p q : List Char} (hocc : occursIn pat s = false)
    (hs : s = p ++ q) : pat.isSuffixOf p = false := by
  cases hb : pat.isSuffixOf p with
  | false => rfl
  | true =>
    exfalso
    obtain ⟨t, rfl⟩ := List.isSuffixOf_iff_suffix.mp hb
    rw [occursIn, List.any_eq_false] at hocc
    refine hocc t.length (List.mem_range.mpr ?_) ?_
    · have : s.length = t.length + pat.length + q.length := by
        rw [hs]; simp; omega
      omega
    · have hdrop : s.drop t.length = pat ++ q := by
        rw [hs, List.append_assoc, List.drop_left]
      rw [hdrop]
      exact List.isPrefixOf_iff_prefix.mpr (List.prefix_append _ _)

theorem hasSuffixLogicalOp_eq_none {p : List Char}
    (hA : loAnd.isSuffixOf p = false) (hO : loOr.isSuffixOf p = false) :
    hasSuffixLogicalOp p = none := by
  rw [hasSuffixLogicalOp, List.find?_eq_none]
  intro op hop
  simp only [listLogicalOperators, List.mem_cons, List.not_mem_nil, or_false] at hop
  rcases hop with rfl | rfl <;> simp_all

theorem dropWhile_idem (p : Char → Bool) (l : List Char) :
    (l.dropWhile p).dropWhile p = l.dropWhile p := by
  induction l with
  | nil => rfl
  | cons x xs ih =>
    rw [List.dropWhile_cons]
    by_cases hx : p x = true
    · rw [if_pos hx]; exact ih
    · rw [if_neg hx, List.dropWhile_cons,
        if_neg (by simpa using hx)]

theorem dropWhile_head_not (p : Char → Bool) (l : List Char) :
    l.dropWhile p = [] ∨ ∃ x xs, l.dropWhile p = x :: xs ∧ p x = false := by
  induction l with
  | nil => exact Or.inl rfl
  | cons y ys ih =>
    rw [List.dropWhile_cons]
    by_cases hy : p y = true
    · rw [if_pos hy]; exact ih
    · rw [if_neg hy]
      exact Or.inr ⟨y, ys, rfl, by simpa using hy⟩

theorem trimRightSpace_prefix (l : List Char) : ∃ t, trimRightSpace l ++ t = l := by
  refine ⟨(l.reverse.takeWhile goIsSpace).reverse, ?_⟩
  rw [trimRightSpace, ← List.reverse_append, List.takeWhile_append_dropWhile,
    List.reverse_reverse]

theorem trimLeftSpace_of_trimmed (l : List Char) :
    trimLeftSpace (trimRightSpace (trimLeftSpace l)) = trimRightSpace (trimLeftSpace l) := by
  rcases dropWhile_head_not goIsSpace l with h | ⟨x, xs, h, hx⟩
  · have h0 : trimLeftSpace l = [] := h
    rw [h0]
    rfl
  · have h0 : trimLeftSpace l = x :: xs := h
    rw [h0]
    obtain ⟨t, ht⟩ := trimRightSpace_prefix (x :: xs)
    cases hr : trimRightSpace (x :: xs) with
    | nil => rfl
    | cons c cs =>
      rw [hr] at ht
      have hcx : c = x := by
        have h2 := congrArg List.head? ht
        simpa using h2
      rw [trimLeftSpace, List.dropWhile_cons, hcx, if_neg (by simp [hx])]

theorem trimRightSpace_idem (l : List Char) :
    trimRightSpace (trimRightSpace l) = trimRightSpace l := by
  rw [trimRightSpace, trimRightSpace, List.reverse_reverse, dropWhile_idem]

theorem trimSpace_idem (l : List Char) : trimSpace (trimSpace l) = trimSpace l := by
  rw [trimSpace, trimSpace, trimLeftSpace_of_trimmed, trimRightSpace_idem]

theorem infix_compose {a b c : List Char} (h1 : ∃ u v, b = u ++ a ++ v)
    (h2 : ∃ u v, c = u ++ b ++ v) : ∃ u v, c = u ++ a ++ v := by
  obtain ⟨u1, v1, rfl⟩ := h1
  obtain ⟨u2, v2, rfl⟩ := h2
  exact ⟨u2 ++ u1, v1 ++ v2, by simp⟩

theorem dropWhile_infixOf (p : Char → Bool) (l : List Char) :
    ∃ u v, l = u ++ l.dropWhile p ++ v :=
  ⟨l.takeWhile p, [], by rw [List.append_nil, List.takeWhile_append_dropWhile]⟩

theorem reverse_dropWhile_infixOf (p : Char → Bool) (l : List Char) :
    ∃ u v, l = u ++ (l.reverse.dropWhile p).reverse ++ v := by
  refine ⟨[], (l.reverse.takeWhile p).reverse, ?_⟩
  rw [List.nil_append, ← List.reverse_append, List.takeWhile_append_dropWhile,
    List.reverse_reverse]

theorem cleanOf_infixOf (s : List Char) : ∃ u v, s = u ++ cleanOf s ++ v := by
  have h1 : ∃ u v, s = u ++ trimSpace s ++ v := by
    refine infix_compose ?_ (dropWhile_infixOf goIsSpace s)
    exact reverse_dropWhile_infixOf goIsSpace (trimLeftSpace s)
  have h2 : ∃ u v, trimSpace s = u ++ trimLeftAll '{' (trimSpace s) ++ v :=
    dropWhile_infixOf _ _
  have h3 : ∃ u v, trimLeftAll '{' (trimSpace s) =
      u ++ trimRightAll '}' (trimLeftAll '{' (trimSpace s)) ++ v :=
    reverse_dropWhile_infixOf _ _
  have h4 : ∃ u v, trimRightAll '}' (trimLeftAll '{' (trimSpace s)) =
      u ++ cleanOf s ++ v := by
    refine infix_compose ?_ (dropWhile_infixOf goIsSpace _)
    exact reverse_dropWhile_infixOf goIsSpace _
  exact infix_compose (infix_compose (infix_compose h4 h3) h2) h1

theorem occursIn_false_of_infixOf {pat s cs : List Char} (hocc : occursIn pat s = false)
    (hinf : ∃ u v, s = u ++ cs ++ v) : occursIn pat cs = false := by
  obtain ⟨u, v, rfl⟩ := hinf
  cases hb : occursIn pat cs with
  | false => rfl
  | true =>
    exfalso
    rw [occursIn, List.any_eq_true] at hb
    obtain ⟨i, hi, hpref⟩ := hb
    rw [occursIn, List.any_eq_false] at hocc
    rw [List.mem_range] at hi
    refine hocc (u.length + i) (List.mem_range.mpr (by simp; omega)) ?_
    have hdrop : (u ++ cs ++ v).drop (u.length + i) = cs.drop i ++ v := by
      rw [List.append_assoc, ← List.drop_drop, List.drop_left, List.drop_append_of_le_length
        (by omega)]
    rw [hdrop]
    obtain ⟨t, ht⟩ := List.isPrefixOf_iff_prefix.mp hpref
    rw [← ht, List.append_assoc]
    exact List.isPrefixOf_iff_prefix.mpr (List.prefix_append _ _)

theorem spLoop_plain (s : List Char) (depth : Nat)
    (hp : '(' ∉ s) (ha : occursIn loAnd s = false) (ho : occursIn loOr s = false) :
    ∀ (post pre : List Char), s = pre ++ post →
      spLoop s depth post pre [] [] = spLoop s depth [] s [] [] := by
  intro post
  induction post with
  | nil =>
    intro pre hs
    rw [hs, List.append_nil]
  | cons r rest ih =>
    intro pre hs
    have hr : r ≠ '(' := fun hc => hp (by rw [hs, hc]; simp)
    conv_lhs => rw [spLoop]
    rw [if_neg hr]
    have hsuf : hasSuffixLogicalOp (pre ++ [r]) = none :=
      hasSuffixLogicalOp_eq_none
        (not_suffix_of_not_occurs (q := rest) ha (by rw [hs]; simp))
        (not_suffix_of_not_occurs (q := rest) ho (by rw [hs]; simp))
    simp only [hsuf]
    exact ih (pre ++ [r]) (by rw [hs]; simp)

theorem sp2Loop_plain (fuel : Nat) (s : List Char) (depth : Nat)
    (hp : '(' ∉ s) (hq : ')' ∉ s)
    (ha : occursIn loAnd s = false) (ho : occursIn loOr s = false) :
    ∀ (post pre : List Char), s = pre ++ post →
      sp2Loop fuel s depth post 0 false pre [] [] = some (parseSimpleStatement s) := by
  intro post
  induction post with
  | nil =>
    intro pre hs
    rw [sp2Loop]
    simp
  | cons r rest ih =>
    intro pre hs
    have hr : r ≠ '(' := fun hc => hp (by rw [hs, hc]; simp)
    have hr2 : r ≠ ')' := fun hc => hq (by rw [hs, hc]; simp)
    rw [sp2Loop, if_neg hr, if_neg hr2]
    have hsuf : hasSuffixLogicalOp pre = none :=
      hasSuffixLogicalOp_eq_none
        (not_suffix_of_not_occurs ha hs)
        (not_suffix_of_not_occurs ho hs)
    simp only [Bool.false_eq_true, if_false, hsuf]
    exact ih (pre ++ [r]) (by rw [hs]; simp)

/-- Claim C10: the older depth-2 parser and the newer depth-5 parser agree
on every simple input: ASCII text containing no parentheses and no `&&` or
`||` occurrence whose brace-and-whitespace-stripped form is nonempty parses
to the same result (the same Comparison on success, the same error
otherwise) under both versions. -/
theorem parsers_agree (s : List Char)
    (_hascii : ∀ c ∈ s, c.toNat < 128)
    (hp : '(' ∉ s) (hq : ')' ∉ s)
    (ha : occursIn loAnd s = false) (ho : occursIn loOr s = false)
    (hne : cleanOf s ≠ []) :
    parse2 s = parse s := by
  have hinf := cleanOf_infixOf s
  obtain ⟨u, v, huv⟩ := hinf
  have hpc : '(' ∉ cleanOf s := fun hmem => hp (by rw [huv]; simp [hmem])
  have hqc : ')' ∉ cleanOf s := fun hmem => hq (by rw [huv]; simp [hmem])
  have hac : occursIn loAnd (cleanOf s) = false :=
    occursIn_false_of_infixOf ha ⟨u, v, huv⟩
  have hoc : occursIn loOr (cleanOf s) = false :=
    occursIn_false_of_infixOf ho ⟨u, v, huv⟩
  have htrim : trimSpace (cleanOf s) = cleanOf s := trimSpace_idem _
  have hcnt : ¬(s.count '(' ≠ s.count ')') := by
    rw [List.count_eq_zero_of_not_mem hp, List.count_eq_zero_of_not_mem hq]
    simp
  have hlenpos : (cleanOf s).length > 0 := List.length_pos.mpr hne
  have hnew : parse s = parseSimpleStatement (cleanOf s) := by
    rw [parse, if_neg hcnt,
      show trimSpace (trimRightAll '}' (trimLeftAll '{' (trimSpace s))) = cleanOf s from rfl,
      safeParse, if_neg (by simp [maxDepth])]
    rw [spLoop_plain (cleanOf s) 0 hpc hac hoc (cleanOf s) [] (by simp)]
    rw [spLoop, htrim, if_pos hlenpos]
    cases hps : parseSimpleStatement (cleanOf s) with
    | error e => rfl
    | ok exp => rfl
  have hold : parse2 s = parseSimpleStatement (cleanOf s) := by
    rw [parse2,
      show trimSpace (trimRightAll '}' (trimLeftAll '{' (trimSpace s))) = cleanOf s from rfl,
      safeParse2F, if_neg (by omega)]
    rw [sp2Loop_plain (cleanOf s).length (cleanOf s) 0 hpc hqc hac hoc (cleanOf s) []
      (by simp)]
    rfl
  rw [hnew, hold]

/-- Witness for C10 at the concrete simple input `a=b`. -/
theorem parsers_agree_witness :
    ((∀ c ∈ "a=b".toList, c.toNat < 128) ∧ '(' ∉ "a=b".toList ∧ ')' ∉ "a=b".toList ∧
      occursIn loAnd "a=b".toList = false ∧ occursIn loOr "a=b".toList = false ∧
      cleanOf "a=b".toList ≠ []) ∧
    parse2 "a=b".toList = parse "a=b".toList :=
  ⟨⟨by decide, by decide, by decide, by decide, by decide, by decide⟩,
    parsers_agree "a=b".toList (by decide) (by decide) (by decide) (by decide) (by decide)
      (by decide)⟩

end CloudwatchLep
